import Mathlib

/-!
Verification development for the incremental issue indexer
(`knowledge-base/scripts/build_index.py`, `json_utils.py`, `memory_monitor.py`,
`search.py`).  The SQLite store is embedded shallowly: each table is a list of
rows, a transaction commits on success and leaves the pre-transaction state
visible on failure, and dictionary lookups that can raise `KeyError` are
modelled with `Option` fields and an `Except` result.
-/

/-- SQLite TRIM(X): strip space characters from both ends of a string. -/
def trimSpaces (s : String) : String :=
  ⟨(((s.toList.dropWhile (fun c => c = ' ')).reverse.dropWhile (fun c => c = ' ')).reverse)⟩

/-- Lookup in the Change State mapping (a Python dict: relative path to mtime). -/
def lookupState : List (String × Nat) → String → Option Nat
  | [], _ => none
  | kv :: rest, key => if kv.1 = key then some kv.2 else lookupState rest key

/-- Assignment into the Change State mapping: the newest write for a key wins. -/
def insertState (st : List (String × Nat)) (key : String) (v : Nat) : List (String × Nat) :=
  (key, v) :: st.filter (fun kv => ¬ kv.1 = key)

/-- Index (from the end) of the last occurrence of a dot in a character list,
mirroring Python str.rfind used by pathlib. -/
def lastDotIdx : List Char → Option Nat
  | [] => none
  | c :: cs =>
    match lastDotIdx cs with
    | some i => some (i + 1)
    | none => if c = '.' then some 0 else none

/-- pathlib PurePath.stem: the final path component without its last suffix. -/
def pathStem (key : String) : String :=
  let name : List Char := (key.toList.reverse.takeWhile (fun c => ¬ c = '/')).reverse
  match lastDotIdx name with
  | some i => if 0 < i ∧ i < name.length - 1 then ⟨name.take i⟩ else ⟨name⟩
  | none => ⟨name⟩

/-- One entry of a document's "signals" JSON array; the keys "kind" and "value"
are accessed with `[]` in the source, so they may be missing (KeyError). -/
structure RawSignal where
  kind : Option String
  value : Option String
deriving DecidableEq, Repr

/-- One entry of a document's "references" JSON array; "label" and "url" are
required (`[]` access), "license" uses .get. -/
structure RawRef where
  label : Option String
  url : Option String
  license : Option String
deriving DecidableEq, Repr

/-- A parsed issue JSON document as passed to upsert_issue.  Fields read with
`doc[...]` are required (modelled as Option, failing when none); fields read
with `doc.get(...)` are optional.  The serialized taxonomy/metadata strings
stand for json.dumps of the corresponding sub-objects. -/
structure RawDoc where
  issue_id : Option String
  source : Option String
  source_rule_id : Option String
  language : Option String
  title : Option String
  summary : Option String
  fix_steps : Option String
  severity : Option String
  confidence : Option String
  taxonomy_json : String
  frequency : Option Int
  metadata_json : String
  updated_at : Option String
  signals : List RawSignal
  references : List RawRef
deriving DecidableEq, Repr

/-- A row of the `issues` table.  `rowid` is the SQLite rowid used to key the
full-text shadow table. -/
structure IssueRow where
  rowid : Nat
  issue_id : String
  source : String
  source_rule_id : Option String
  language : Option String
  title : String
  summary : Option String
  fix_steps : Option String
  severity : Option String
  confidence : Option String
  taxonomy_json : String
  frequency : Option Int
  metadata_json : String
  updated_at : Option String
deriving DecidableEq, Repr

/-- A row of the `signals` table. -/
structure SignalRow where
  issue_id : String
  kind : String
  value : String
deriving DecidableEq, Repr

/-- A row of the `references_web` table. -/
structure RefRow where
  issue_id : String
  label : String
  url : String
  license : Option String
deriving DecidableEq, Repr

/-- An Index Row of the `fts_issues` contentless FTS5 table, keyed by the
`issues` rowid. -/
structure FtsRow where
  rowid : Nat
  title : String
  summary : String
  fix_steps : String
  signals_concat : String
  language : String
deriving DecidableEq, Repr

/-- The relational store: the four tables plus the next fresh rowid for the
`issues` table. -/
structure Store where
  nextRowid : Nat
  issues : List IssueRow
  signals : List SignalRow
  references_web : List RefRow
  fts : List FtsRow
deriving DecidableEq, Repr

/-- Observable data-write events against the store (used to state ordering and
"zero writes" properties). -/
inductive Event
  | insertIssue (id : String)
  | updateIssue (id : String)
  | deleteSignals (id : String)
  | insertSignal (id kind value : String)
  | deleteRefs (id : String)
  | insertRef (id label url : String)
  | ftsInsert (rowid : Nat)
  | ftsDeleteMarker (rowid : Nat)
  | deleteIssueRow (id : String)
  | mergeCmd
  | optimizeCmd
deriving DecidableEq, Repr

/-- The store together with the trace of data writes performed so far. -/
structure DB where
  store : Store
  trace : List Event
deriving DecidableEq, Repr

/-- Failure of an upsert: a KeyError on a required document field. -/
inductive UpsertErr
  | keyError (field : String)
deriving DecidableEq, Repr

/-- Python `doc[field]`: the value if present, KeyError otherwise. -/
def require (field : String) : Option α → Except UpsertErr α
  | some a => .ok a
  | none => .error (.keyError field)

/-- Linear search of the `issues` table by issue_id
(SELECT ... FROM issues WHERE issue_id=?). -/
def findIssue : List IssueRow → String → Option IssueRow
  | [], _ => none
  | r :: rs, id => if r.issue_id = id then some r else findIssue rs id

/-- Linear search of the `issues` table by rowid (the JOIN in the query path). -/
def findIssueByRowid : List IssueRow → Nat → Option IssueRow
  | [], _ => none
  | r :: rs, rid => if r.rowid = rid then some r else findIssueByRowid rs rid

/-- Linear search of the `fts_issues` table by rowid. -/
def findFts : List FtsRow → Nat → Option FtsRow
  | [], _ => none
  | f :: fs, rid => if f.rowid = rid then some f else findFts fs rid

/-- The ON CONFLICT(issue_id) DO UPDATE clause: replace the content columns and
updated_at, keeping rowid, issue_id, source, source_rule_id and language. -/
def updIssueRow (doc : RawDoc) (title id : String) (r : IssueRow) : IssueRow :=
  if r.issue_id = id then
    { r with
      title := title
      summary := doc.summary
      fix_steps := doc.fix_steps
      severity := doc.severity
      confidence := doc.confidence
      frequency := doc.frequency
      taxonomy_json := doc.taxonomy_json
      metadata_json := doc.metadata_json
      updated_at := doc.updated_at }
  else r

/-- The plain INSERT branch of upsert_issue, using a fresh rowid. -/
def newIssueRow (st : Store) (doc : RawDoc) (id src title : String) : IssueRow :=
  { rowid := st.nextRowid
    issue_id := id
    source := src
    source_rule_id := doc.source_rule_id
    language := doc.language
    title := title
    summary := doc.summary
    fix_steps := doc.fix_steps
    severity := doc.severity
    confidence := doc.confidence
    taxonomy_json := doc.taxonomy_json
    frequency := doc.frequency
    metadata_json := doc.metadata_json
    updated_at := doc.updated_at }

/-- The signals INSERT loop: each entry needs "kind" and "value"; the first
KeyError propagates. -/
def collectSignals (id : String) : List RawSignal → Except UpsertErr (List SignalRow)
  | [] => .ok []
  | s :: rest =>
    match require ("kind") s.kind with
    | .error e => .error e
    | .ok k =>
      match require ("value") s.value with
      | .error e => .error e
      | .ok v =>
        match collectSignals id rest with
        | .error e => .error e
        | .ok tail => .ok (⟨id, k, v⟩ :: tail)

/-- The references INSERT loop: each entry needs "label" and "url"; the first
KeyError propagates. -/
def collectRefs (id : String) : List RawRef → Except UpsertErr (List RefRow)
  | [] => .ok []
  | r :: rest =>
    match require ("label") r.label with
    | .error e => .error e
    | .ok l =>
      match require ("url") r.url with
      | .error e => .error e
      | .ok u =>
        match collectRefs id rest with
        | .error e => .error e
        | .ok tail => .ok (⟨id, l, u, r.license⟩ :: tail)

/-- upsert_issue: INSERT ... ON CONFLICT(issue_id) DO UPDATE on `issues`, then
full replacement (DELETE then INSERT) of the document's `signals` and
`references_web` child rows. -/
def upsert_issue (db : DB) (doc : RawDoc) : Except UpsertErr DB :=
  match require ("issue_id") doc.issue_id with
  | .error e => .error e
  | .ok id =>
    match require ("source") doc.source with
    | .error e => .error e
    | .ok src =>
      match require ("title") doc.title with
      | .error e => .error e
      | .ok title =>
        let st0 := db.store
        let stEv :=
          match findIssue st0.issues id with
          | some _ => ({ st0 with issues := st0.issues.map (updIssueRow doc title id) },
                       Event.updateIssue id)
          | none =>
            ({ st0 with
                issues := st0.issues ++ [newIssueRow st0 doc id src title]
                nextRowid := st0.nextRowid + 1 },
             Event.insertIssue id)
        match collectSignals id doc.signals with
        | .error e => .error e
        | .ok sigs =>
          match collectRefs id doc.references with
          | .error e => .error e
          | .ok refs =>
            let st1 := stEv.1
            let st2 := { st1 with
              signals := st1.signals.filter (fun s : SignalRow => ¬ s.issue_id = id) ++ sigs
              references_web :=
                st1.references_web.filter (fun r : RefRow => ¬ r.issue_id = id) ++ refs }
            .ok { store := st2
                  trace := db.trace ++ [stEv.2, .deleteSignals id]
                    ++ sigs.map (fun s => .insertSignal id s.kind s.value)
                    ++ [.deleteRefs id]
                    ++ refs.map (fun r => .insertRef id r.label r.url) }

/-- GROUP_CONCAT(value,' ') over the document's signal rows, with TRIM and
COALESCE to the empty string. -/
def signalsConcat (st : Store) (id : String) : String :=
  trimSpaces (String.intercalate (" ")
    (((st.signals.filter (fun s : SignalRow => s.issue_id = id))).map SignalRow.value))

/-- The Index Row regenerated from the current Document and Signal rows
(the SELECT feeding INSERT INTO fts_issues in update_fts). -/
def ftsRowFor (st : Store) (r : IssueRow) : FtsRow :=
  { rowid := r.rowid
    title := r.title
    summary := r.summary.getD ("")
    fix_steps := r.fix_steps.getD ("")
    signals_concat := signalsConcat st r.issue_id
    language := r.language.getD ("") }

/-- Modelled from the spec: the schema file `issues_index.sql` is not among the
sources; per the spec the full-text shadow table is keyed by the primary
table's row identity, so inserting at an existing key replaces that Index Row. -/
def ftsTableInsert (fts : List FtsRow) (row : FtsRow) : List FtsRow :=
  row :: fts.filter (fun f : FtsRow => ¬ f.rowid = row.rowid)

/-- update_fts: look up the document's rowid; if absent do nothing, otherwise
regenerate its Index Row from the current Document + Signal rows. -/
def update_fts (db : DB) (issue_id : String) : DB :=
  match findIssue db.store.issues issue_id with
  | none => db
  | some r =>
    { store := { db.store with fts := ftsTableInsert db.store.fts (ftsRowFor db.store r) }
      trace := db.trace ++ [.ftsInsert r.rowid] }

/-- delete_issue: look up the rowid (return silently if absent), then write the
FTS deletion marker, delete the signal children, the reference children and
finally the document row, in that order. -/
def delete_issue (db : DB) (issue_id : String) : DB :=
  match findIssue db.store.issues issue_id with
  | none => db
  | some r =>
    { store := { db.store with
        fts := db.store.fts.filter (fun f : FtsRow => ¬ f.rowid = r.rowid)
        signals := db.store.signals.filter (fun s : SignalRow => ¬ s.issue_id = issue_id)
        references_web := db.store.references_web.filter (fun w : RefRow => ¬ w.issue_id = issue_id)
        issues := db.store.issues.filter (fun i : IssueRow => ¬ i.issue_id = issue_id) }
      trace := db.trace ++ [.ftsDeleteMarker r.rowid, .deleteSignals issue_id,
        .deleteRefs issue_id, .deleteIssueRow issue_id] }

/-- One iteration of the process_batch loop: upsert the document, then
resynchronize its Index Row. -/
def batchStep (db : DB) (doc : RawDoc) : Except UpsertErr DB :=
  match upsert_issue db doc with
  | .error e => .error e
  | .ok db' =>
    match doc.issue_id with
    | some id => .ok (update_fts db' id)
    | none => .error (.keyError ("issue_id"))

/-- The body of process_batch: apply every document in order, stopping at the
first uncaught exception. -/
def applyBatch (db : DB) : List RawDoc → Except UpsertErr DB
  | [] => .ok db
  | doc :: rest =>
    match batchStep db doc with
    | .error e => .error e
    | .ok db' => applyBatch db' rest

/-- process_batch: BEGIN; upsert and resynchronize every document; COMMIT.
An error is an uncaught exception: the transaction never commits. -/
def process_batch (db : DB) (batch : List RawDoc) : Except UpsertErr DB :=
  applyBatch db batch

/-- The state visible after running process_batch under SQLite transaction
semantics: the committed result on success, the pre-transaction state on
rollback. -/
def process_batch_visible (db : DB) (batch : List RawDoc) : DB :=
  match process_batch db batch with
  | .ok db' => db'
  | .error _ => db

/-- Decidable success condition for upserting one document: all `[]`-accessed
fields are present. -/
def signalOk (s : RawSignal) : Bool :=
  s.kind.isSome && s.value.isSome

/-- Decidable success condition for one reference entry. -/
def refOk (r : RawRef) : Bool :=
  r.label.isSome && r.url.isSome

/-- A document upserts without a KeyError iff all required fields are present. -/
def docOk (d : RawDoc) : Bool :=
  d.issue_id.isSome && d.source.isSome && d.title.isSome
    && d.signals.all signalOk && d.references.all refOk

/-- Maximum JSON file size accepted by the Document Loader. -/
def MAX_JSON_BYTES : Nat := 1000000

/-- Failure of the Document Loader. -/
inductive LoadErr
  | sizeExceeded
  | parseError
deriving DecidableEq, Repr

/-- A source file as seen by the run: relative path, mtime in nanoseconds,
byte size, and its parse result (none models malformed JSON). -/
structure FileEntry where
  path : String
  mtime_ns : Nat
  size : Nat
  parsed : Option RawDoc
deriving DecidableEq, Repr

/-- load_json: check the byte size against the ceiling before reading; only
then read and parse the content. -/
def load_json (f : FileEntry) : Except LoadErr RawDoc :=
  if f.size > MAX_JSON_BYTES then .error .sizeExceeded
  else
    match f.parsed with
    | some d => .ok d
    | none => .error .parseError

example : trimSpaces ("  a b  ") = ("a b") := by decide
example : pathStem ("issues/src/py/abc123.json") = ("abc123") := by decide
example : pathStem ("a/b/.bashrc") = (".bashrc") := by decide

/-- The LOG_INTERVAL constant: memory is sampled every 5000 scanned files. -/
def LOG_INTERVAL : Nat := 5000

/-- MemoryMonitor.rss_mb: the resident set size in megabytes, derived from the
sampled byte count. -/
def MemoryMonitor.rss_mb (rssBytes : ℚ) : ℚ :=
  rssBytes / (1024 ^ 2)

/-- Errors that abort an indexing run. -/
inductive RunErr
  | projectedMemory
  | load (e : LoadErr)
  | upsert (e : UpsertErr)
  | ftsIntegrity
  | dbIntegrity
deriving DecidableEq, Repr

/-- Modelled from the spec: the FTS internal consistency check and the
whole-store PRAGMA integrity check inspect SQLite internals, so their outcomes
are boolean oracles; the first failing check raises. -/
def check_integrity (ftsOk dbOk : Bool) : Except RunErr Unit :=
  if ¬ ftsOk = true then .error .ftsIntegrity
  else if ¬ dbOk = true then .error .dbIntegrity
  else .ok ()

/-- The mutable state of the scan loop in main. -/
structure ScanState where
  total : Nat
  changed : Nat
  new_state : List (String × Nat)
  removed_keys : List String
  batch : List RawDoc
  batchSize : Nat
  db : DB
  loads : List (String × RawDoc)
  flushed : List RawDoc
deriving Repr

/-- The memory sampling block run once per scanned file: every LOG_INTERVAL
files, read the RSS and halve the batch size (floor one) when the reading
meets or exceeds a configured nonzero hard limit. -/
def sampleMem (limit : Option ℚ) (rssBytes : Nat → ℚ) (s : ScanState) : ScanState :=
  if s.total % LOG_INTERVAL = 0 then
    let rss := MemoryMonitor.rss_mb (rssBytes s.total)
    match limit with
    | some l => if ¬ l = 0 ∧ rss ≥ l then { s with batchSize := max 1 (s.batchSize / 2) } else s
    | none => s
  else s

/-- One iteration of the scan loop: bump the counters and the new Change
State, discard the path from the removal candidates, and when the stored
mtime differs, load the file, buffer it and flush a full batch; finally run
the memory sampling block.  The second component is the uncaught exception,
if any; the returned state then shows only committed work. -/
def scanStep (state : List (String × Nat)) (limit : Option ℚ) (rssBytes : Nat → ℚ)
    (s : ScanState) (f : FileEntry) : ScanState × Option RunErr :=
  let s := { s with
    total := s.total + 1
    new_state := insertState s.new_state f.path f.mtime_ns
    removed_keys := s.removed_keys.filter (fun k => ¬ k = f.path) }
  if ¬ lookupState state f.path = some f.mtime_ns then
    match load_json f with
    | .error e => (s, some (.load e))
    | .ok doc =>
      let s := { s with
        loads := s.loads ++ [(f.path, doc)]
        batch := s.batch ++ [doc]
        changed := s.changed + 1 }
      if s.batch.length ≥ s.batchSize then
        match process_batch s.db s.batch with
        | .error e => (s, some (.upsert e))
        | .ok db' =>
          (sampleMem limit rssBytes { s with db := db', flushed := s.flushed ++ s.batch, batch := [] },
           none)
      else (sampleMem limit rssBytes s, none)
  else (sampleMem limit rssBytes s, none)

/-- The scan loop over the lazily listed corpus, stopping at the first
uncaught exception. -/
def scanCorpus (state : List (String × Nat)) (limit : Option ℚ) (rssBytes : Nat → ℚ) :
    ScanState → List FileEntry → ScanState × Option RunErr
  | s, [] => (s, none)
  | s, f :: fs =>
    match scanStep state limit rssBytes s f with
    | (s', none) => scanCorpus state limit rssBytes s' fs
    | (s', some e) => (s', some e)

/-- The flush of a non-empty remainder batch after the loop. -/
def finalFlush (s : ScanState) : ScanState × Option RunErr :=
  if s.batch = [] then (s, none)
  else
    match process_batch s.db s.batch with
    | .error e => (s, some (.upsert e))
    | .ok db' => ({ s with db := db', flushed := s.flushed ++ s.batch, batch := [] }, none)

/-- The initial scan state: counters at zero, removal candidates seeded from
the prior Change State keys, and a clean trace over the existing store. -/
def initScan (state : List (String × Nat)) (batchSize0 : Nat) (st0 : Store) : ScanState :=
  { total := 0
    changed := 0
    new_state := []
    removed_keys := state.map Prod.fst
    batch := []
    batchSize := batchSize0
    db := { store := st0, trace := [] }
    loads := []
    flushed := [] }

/-- Scan plus remainder flush. -/
def runScan (corpus : List FileEntry) (state : List (String × Nat)) (batchSize0 : Nat)
    (limit : Option ℚ) (rssBytes : Nat → ℚ) (st0 : Store) : ScanState × Option RunErr :=
  match scanCorpus state limit rssBytes (initScan state batchSize0 st0) corpus with
  | (s, some e) => (s, some e)
  | (s, none) => finalFlush s

/-- The outcome of one indexing run: the result, the visible store and trace,
the on-disk Change State file after the run, and instrumentation (loaded
files, flushed documents, changed count, removed keys). -/
structure RunResult where
  result : Except RunErr Unit
  db : DB
  stateFile : List (String × Nat)
  loads : List (String × RawDoc)
  flushed : List RawDoc
  changed : Nat
  removed : List String
deriving Repr

/-- The coarse pre-flight heuristic check:
projected memory (file count times batch size) strictly above a configured
nonzero hard limit aborts before any work. -/
def preflightFails (totalFiles batchSize0 : Nat) (limit : Option ℚ) : Bool :=
  match limit with
  | some l => decide (¬ l = 0 ∧ (totalFiles * batchSize0 : ℚ) > l)
  | none => false

/-- main: pre-flight projected-memory check, scan with batched flushes,
no-op short circuit, deletion pass, merge/optimize plus the two integrity
checks in one final transaction, and only then persistence of the new Change
State.  The schema script, journal pragma and the automerge configuration
issued at start are modelled as content no-ops (the schema file is not among
the sources and they write no document data). -/
def mainRun (corpus : List FileEntry) (state : List (String × Nat)) (dbExists : Bool)
    (batchSize0 : Nat) (limit : Option ℚ) (rssBytes : Nat → ℚ) (ftsOk dbOk : Bool)
    (st0 : Store) : RunResult :=
  if preflightFails corpus.length batchSize0 limit = true then
    { result := .error .projectedMemory
      db := { store := st0, trace := [] }
      stateFile := state
      loads := []
      flushed := []
      changed := 0
      removed := [] }
  else
    match runScan corpus state batchSize0 limit rssBytes st0 with
    | (s, some e) =>
      { result := .error e
        db := s.db
        stateFile := state
        loads := s.loads
        flushed := s.flushed
        changed := s.changed
        removed := [] }
    | (s, none) =>
      let removed := s.removed_keys
      if s.changed = 0 ∧ removed = [] ∧ dbExists = true then
        { result := .ok ()
          db := s.db
          stateFile := state
          loads := s.loads
          flushed := s.flushed
          changed := s.changed
          removed := removed }
      else
        let dbDel := removed.foldl (fun db key => delete_issue db (pathStem key)) s.db
        match check_integrity ftsOk dbOk with
        | .error e =>
          { result := .error e
            db := dbDel
            stateFile := state
            loads := s.loads
            flushed := s.flushed
            changed := s.changed
            removed := removed }
        | .ok _ =>
          { result := .ok ()
            db := { dbDel with trace := dbDel.trace ++ [.mergeCmd, .optimizeCmd] }
            stateFile := s.new_state
            loads := s.loads
            flushed := s.flushed
            changed := s.changed
            removed := removed }

/-- Python str.split() whitespace characters. -/
def pyIsSpace (c : Char) : Bool :=
  c = ' ' || c = '\t' || c = '\n' || c = '\r' || c = '\x0b' || c = '\x0c'

/-- Helper for pySplit: walk the characters, accumulating the current word in
reverse; whitespace closes a word, maximal non-space runs become the words. -/
def pyWordsGo : List Char → List Char → List String
  | [], cur => if cur = [] then [] else [⟨cur.reverse⟩]
  | c :: cs, cur =>
    if pyIsSpace c then
      if cur = [] then pyWordsGo cs []
      else ⟨cur.reverse⟩ :: pyWordsGo cs []
    else pyWordsGo cs (c :: cur)

/-- Python str.split() with no argument: split on whitespace runs, dropping
empty pieces. -/
def pySplit (q : String) : List String :=
  pyWordsGo q.toList []

/-- The query transformation: append a wildcard to every whitespace-delimited
term and join the terms with single spaces. -/
def prepareQuery (query : String) : String :=
  String.intercalate (" ") ((pySplit query).map (fun term => term ++ ("*")))

/-- One row of the search result (the dict built per hit in query_fts). -/
structure SearchRow where
  issue_id : String
  title : String
  summary : Option String
  fix_steps : Option String
  language : Option String
deriving DecidableEq, Repr

/-- Insertion into a list sorted by ascending bm25 score. -/
def insertByRank (rank : FtsRow → ℚ) (x : FtsRow) : List FtsRow → List FtsRow
  | [] => [x]
  | y :: ys => if rank x ≤ rank y then x :: y :: ys else y :: insertByRank rank x ys

/-- ORDER BY bm25(fts_issues): sort the matching Index Rows by ascending
score (most relevant first). -/
def sortByRank (rank : FtsRow → ℚ) : List FtsRow → List FtsRow
  | [] => []
  | x :: xs => insertByRank rank x (sortByRank rank xs)

/-- Modelled from the spec: FTS5 MATCH and the bm25 relevance function are
behavior of the embedded store, represented as oracles; the query selects the
matching Index Rows, orders them by ascending bm25 score and joins each back
to its document row by rowid. -/
def queryHits (st : Store) (matchesQ : String → FtsRow → Bool) (rank : FtsRow → ℚ)
    (fts_query : String) : List (FtsRow × IssueRow) :=
  (sortByRank rank (st.fts.filter (fun f => matchesQ fts_query f))).filterMap
    (fun f => (findIssueByRowid st.issues f.rowid).map (fun i => (f, i)))

/-- The result of query_fts: the rows, whether the store was touched, and the
match expression that was executed (none when no query ran). -/
structure QueryResult where
  rows : List SearchRow
  touched : Bool
  executedMatch : Option String
deriving DecidableEq, Repr

/-- query_fts: assert the limit is positive (none on violation); an empty
query returns an empty list without opening the store; otherwise transform
the query, run the ranked join and truncate at the limit. -/
def query_fts (st : Store) (matchesQ : String → FtsRow → Bool) (rank : FtsRow → ℚ)
    (query : String) (limit : Nat) : Option QueryResult :=
  if limit = 0 then none
  else if query = "" then some { rows := [], touched := false, executedMatch := none }
  else
    let fts_query := prepareQuery query
    some { rows := ((queryHits st matchesQ rank fts_query).take limit).map
             (fun p => { issue_id := p.2.issue_id
                         title := p.2.title
                         summary := p.2.summary
                         fix_steps := p.2.fix_steps
                         language := p.2.language })
           touched := true
           executedMatch := some fts_query }

example : prepareQuery ("auth timeout") = ("auth* timeout*") := by decide
example : prepareQuery ("") = ("") := by decide

/-- Success test for an Except value. -/
def exceptOk : Except ε α → Bool
  | .ok _ => true
  | .error _ => false

theorem exceptOk_iff {e : Except ε α} : exceptOk e = true ↔ ∃ a, e = .ok a := by
  cases e <;> simp [exceptOk]

theorem require_eq_ok {α} {field : String} {o : Option α} {a : α} :
    require field o = .ok a ↔ o = some a := by
  cases o <;> simp [require]

theorem findIssue_some {l : List IssueRow} {id : String} {r : IssueRow}
    (h : findIssue l id = some r) : r ∈ l ∧ r.issue_id = id := by
  induction l with
  | nil => simp [findIssue] at h
  | cons x xs ih =>
    by_cases hx : x.issue_id = id
    · simp [findIssue, hx] at h
      subst h
      exact ⟨List.mem_cons_self _ _, hx⟩
    · simp [findIssue, hx] at h
      rcases ih h with ⟨hm, hid⟩
      exact ⟨List.mem_cons_of_mem _ hm, hid⟩

theorem findIssue_none {l : List IssueRow} {id : String} :
    findIssue l id = none ↔ ∀ r ∈ l, ¬ r.issue_id = id := by
  induction l with
  | nil => simp [findIssue]
  | cons x xs ih =>
    by_cases hx : x.issue_id = id
    · simp [findIssue, hx]
    · simp [findIssue, hx, ih]

theorem findIssue_mem {l : List IssueRow} {id : String} {r : IssueRow}
    (hm : r ∈ l) (hid : r.issue_id = id) : ∃ r', findIssue l id = some r' := by
  induction l with
  | nil => simp at hm
  | cons x xs ih =>
    by_cases hx : x.issue_id = id
    · exact ⟨x, by simp [findIssue, hx]⟩
    · rcases List.mem_cons.mp hm with h | h
      · subst h; exact absurd hid hx
      · rcases ih h with ⟨r', hr'⟩
        exact ⟨r', by simp [findIssue, hx, hr']⟩

theorem findFts_some {l : List FtsRow} {rid : Nat} {f : FtsRow}
    (h : findFts l rid = some f) : f ∈ l ∧ f.rowid = rid := by
  induction l with
  | nil => simp [findFts] at h
  | cons x xs ih =>
    by_cases hx : x.rowid = rid
    · simp [findFts, hx] at h
      subst h
      exact ⟨List.mem_cons_self _ _, hx⟩
    · simp [findFts, hx] at h
      rcases ih h with ⟨hm, hid⟩
      exact ⟨List.mem_cons_of_mem _ hm, hid⟩

theorem findFts_none {l : List FtsRow} {rid : Nat} :
    findFts l rid = none ↔ ∀ f ∈ l, ¬ f.rowid = rid := by
  induction l with
  | nil => simp [findFts]
  | cons x xs ih =>
    by_cases hx : x.rowid = rid
    · simp [findFts, hx]
    · simp [findFts, hx, ih]

theorem lookupState_none {st : List (String × Nat)} {key : String} :
    lookupState st key = none ↔ ∀ kv ∈ st, ¬ kv.1 = key := by
  induction st with
  | nil => simp [lookupState]
  | cons x xs ih =>
    by_cases hx : x.1 = key
    · simp [lookupState, hx]
    · simp [lookupState, hx, ih]


theorem collectSignals_ok_iff {id : String} {l : List RawSignal} :
    exceptOk (collectSignals id l) = true ↔ ∀ s ∈ l, signalOk s = true := by
  induction l with
  | nil => simp [collectSignals, exceptOk]
  | cons s rest ih =>
    cases hk : s.kind with
    | none => simp [collectSignals, require, hk, exceptOk, signalOk]
    | some k =>
      cases hv : s.value with
      | none => simp [collectSignals, require, hk, hv, exceptOk, signalOk]
      | some v =>
        cases hrec : collectSignals id rest with
        | error e =>
          rw [hrec] at ih
          simp [collectSignals, require, hk, hv, hrec, exceptOk, signalOk] at ih ⊢
          exact ih
        | ok rows =>
          rw [hrec] at ih
          simp [collectSignals, require, hk, hv, hrec, exceptOk, signalOk] at ih ⊢
          exact ih

theorem collectSignals_mem_id {id : String} {l : List RawSignal} {rows : List SignalRow}
    (h : collectSignals id l = .ok rows) : ∀ row ∈ rows, row.issue_id = id := by
  induction l generalizing rows with
  | nil =>
    simp [collectSignals] at h
    subst h
    simp
  | cons s rest ih =>
    cases hk : s.kind with
    | none => simp [collectSignals, require, hk] at h
    | some k =>
      cases hv : s.value with
      | none => simp [collectSignals, require, hk, hv] at h
      | some v =>
        cases hrec : collectSignals id rest with
        | error e => simp [collectSignals, require, hk, hv, hrec] at h
        | ok tail =>
          simp [collectSignals, require, hk, hv, hrec] at h
          subst h
          intro row hrow
          rcases List.mem_cons.mp hrow with h | h
          · subst h; rfl
          · exact ih hrec row h

theorem collectRefs_ok_iff {id : String} {l : List RawRef} :
    exceptOk (collectRefs id l) = true ↔ ∀ r ∈ l, refOk r = true := by
  induction l with
  | nil => simp [collectRefs, exceptOk]
  | cons r rest ih =>
    cases hk : r.label with
    | none => simp [collectRefs, require, hk, exceptOk, refOk]
    | some lb =>
      cases hv : r.url with
      | none => simp [collectRefs, require, hk, hv, exceptOk, refOk]
      | some u =>
        cases hrec : collectRefs id rest with
        | error e =>
          rw [hrec] at ih
          simp [collectRefs, require, hk, hv, hrec, exceptOk, refOk] at ih ⊢
          exact ih
        | ok rows =>
          rw [hrec] at ih
          simp [collectRefs, require, hk, hv, hrec, exceptOk, refOk] at ih ⊢
          exact ih

theorem collectRefs_mem_id {id : String} {l : List RawRef} {rows : List RefRow}
    (h : collectRefs id l = .ok rows) : ∀ row ∈ rows, row.issue_id = id := by
  induction l generalizing rows with
  | nil =>
    simp [collectRefs] at h
    subst h
    simp
  | cons r rest ih =>
    cases hk : r.label with
    | none => simp [collectRefs, require, hk] at h
    | some lb =>
      cases hv : r.url with
      | none => simp [collectRefs, require, hk, hv] at h
      | some u =>
        cases hrec : collectRefs id rest with
        | error e => simp [collectRefs, require, hk, hv, hrec] at h
        | ok tail =>
          simp [collectRefs, require, hk, hv, hrec] at h
          subst h
          intro row hrow
          rcases List.mem_cons.mp hrow with h | h
          · subst h; rfl
          · exact ih hrec row h

theorem upsert_issue_ok_elim {db : DB} {doc : RawDoc} {db' : DB}
    (h : upsert_issue db doc = .ok db') :
    ∃ id src title sigs refs,
      doc.issue_id = some id ∧ doc.source = some src ∧ doc.title = some title ∧
      collectSignals id doc.signals = .ok sigs ∧ collectRefs id doc.references = .ok refs ∧
      db'.store.signals =
        db.store.signals.filter (fun s : SignalRow => ¬ s.issue_id = id) ++ sigs ∧
      db'.store.references_web =
        db.store.references_web.filter (fun r : RefRow => ¬ r.issue_id = id) ++ refs ∧
      db'.store.fts = db.store.fts ∧
      (((∃ r0, findIssue db.store.issues id = some r0) ∧
          db'.store.issues = db.store.issues.map (updIssueRow doc title id) ∧
          db'.store.nextRowid = db.store.nextRowid) ∨
        (findIssue db.store.issues id = none ∧
          db'.store.issues = db.store.issues ++ [newIssueRow db.store doc id src title] ∧
          db'.store.nextRowid = db.store.nextRowid + 1)) := by
  cases hid : doc.issue_id with
  | none => simp [upsert_issue, require, hid] at h
  | some id =>
  cases hsrc : doc.source with
  | none => simp [upsert_issue, require, hid, hsrc] at h
  | some src =>
  cases htitle : doc.title with
  | none => simp [upsert_issue, require, hid, hsrc, htitle] at h
  | some title =>
  cases hsig : collectSignals id doc.signals with
  | error e => simp [upsert_issue, require, hid, hsrc, htitle, hsig] at h
  | ok sigs =>
  cases href : collectRefs id doc.references with
  | error e => simp [upsert_issue, require, hid, hsrc, htitle, hsig, href] at h
  | ok refs =>
  refine ⟨id, src, title, sigs, refs, rfl, rfl, rfl, hsig, href, ?_⟩
  cases hfind : findIssue db.store.issues id with
  | some r0 =>
    simp [upsert_issue, require, hid, hsrc, htitle, hsig, href, hfind] at h
    subst h
    exact ⟨by simp, by simp, rfl, Or.inl ⟨⟨r0, rfl⟩, rfl, rfl⟩⟩
  | none =>
    simp [upsert_issue, require, hid, hsrc, htitle, hsig, href, hfind] at h
    subst h
    exact ⟨by simp, by simp, rfl, Or.inr ⟨rfl, rfl, rfl⟩⟩

theorem upsert_ok_of_docOk {db : DB} {doc : RawDoc} (h : docOk doc = true) :
    ∃ db', upsert_issue db doc = .ok db' := by
  simp only [docOk, Bool.and_eq_true] at h
  obtain ⟨⟨⟨⟨hid, hsrc⟩, htitle⟩, hsigs⟩, hrefs⟩ := h
  obtain ⟨id, hid'⟩ := Option.isSome_iff_exists.mp hid
  obtain ⟨src, hsrc'⟩ := Option.isSome_iff_exists.mp hsrc
  obtain ⟨title, htitle'⟩ := Option.isSome_iff_exists.mp htitle
  obtain ⟨sigs, hsig⟩ := exceptOk_iff.mp
    ((@collectSignals_ok_iff id doc.signals).mpr
      (by simpa [List.all_eq_true] using hsigs))
  obtain ⟨refs, href⟩ := exceptOk_iff.mp
    ((@collectRefs_ok_iff id doc.references).mpr
      (by simpa [List.all_eq_true] using hrefs))
  apply exceptOk_iff.mp
  simp [upsert_issue, require, hid', hsrc', htitle', hsig, href, exceptOk]

theorem docOk_of_upsert_ok {db db' : DB} {doc : RawDoc}
    (h : upsert_issue db doc = .ok db') : docOk doc = true := by
  obtain ⟨id, src, title, sigs, refs, hid, hsrc, htitle, hsig, href, -, -, -, -⟩ :=
    upsert_issue_ok_elim h
  have hs : ∀ s ∈ doc.signals, signalOk s = true :=
    (@collectSignals_ok_iff id doc.signals).mp (by simp [hsig, exceptOk])
  have hr : ∀ r ∈ doc.references, refOk r = true :=
    (@collectRefs_ok_iff id doc.references).mp (by simp [href, exceptOk])
  simp [docOk, hid, hsrc, htitle, List.all_eq_true]
  exact ⟨hs, hr⟩

theorem batchStep_ok_iff {db : DB} {doc : RawDoc} :
    (∃ db', batchStep db doc = .ok db') ↔ docOk doc = true := by
  constructor
  · rintro ⟨db', h⟩
    unfold batchStep at h
    cases hup : upsert_issue db doc with
    | error e => rw [hup] at h; simp at h
    | ok dbu => exact docOk_of_upsert_ok hup
  · intro h
    obtain ⟨dbu, hup⟩ := @upsert_ok_of_docOk db _ h
    have hid : doc.issue_id.isSome = true := by
      simp only [docOk, Bool.and_eq_true] at h
      exact h.1.1.1.1
    obtain ⟨id, hid'⟩ := Option.isSome_iff_exists.mp hid
    exact ⟨update_fts dbu id, by simp [batchStep, hup, hid']⟩

theorem applyBatch_ok_iff {batch : List RawDoc} : ∀ {db : DB},
    (∃ db', applyBatch db batch = .ok db') ↔ ∀ d ∈ batch, docOk d = true := by
  induction batch with
  | nil => intro db; simp [applyBatch]
  | cons doc rest ih =>
    intro db
    constructor
    · rintro ⟨db', h⟩
      unfold applyBatch at h
      cases hbs : batchStep db doc with
      | error e => rw [hbs] at h; simp at h
      | ok db1 =>
        rw [hbs] at h
        intro d hd'
        rcases List.mem_cons.mp hd' with hcase | hcase
        · subst hcase; exact batchStep_ok_iff.mp ⟨db1, hbs⟩
        · exact ih.mp ⟨db', h⟩ d hcase
    · intro hall
      obtain ⟨db1, hbs⟩ := batchStep_ok_iff.mpr (hall doc (List.mem_cons_self _ _))
      obtain ⟨db', h⟩ := ih.mpr (fun d hd' => hall d (List.mem_cons_of_mem _ hd'))
      refine ⟨db', ?_⟩
      rw [applyBatch, hbs]
      exact h

/-- C1: a batch commits iff every upsert in it succeeds; a failed upsert means
the whole batch is rolled back and the store visible afterwards equals the
store before the batch began; success of upsert_issue is exactly docOk. -/
theorem C1_batch_atomic :
    (∀ (db : DB) (batch : List RawDoc),
        exceptOk (process_batch db batch) = true ↔ ∀ d ∈ batch, docOk d = true)
    ∧ (∀ (db : DB) (d : RawDoc), exceptOk (upsert_issue db d) = true ↔ docOk d = true)
    ∧ (∀ (db : DB) (batch : List RawDoc),
        (∃ d ∈ batch, ¬ docOk d = true) → process_batch_visible db batch = db) := by
  have hpb : ∀ (db : DB) (batch : List RawDoc),
      exceptOk (process_batch db batch) = true ↔ ∀ d ∈ batch, docOk d = true := by
    intro db batch
    rw [exceptOk_iff]
    exact applyBatch_ok_iff
  refine ⟨hpb, ?_, ?_⟩
  · intro db d
    constructor
    · intro h
      obtain ⟨db', hok⟩ := exceptOk_iff.mp h
      exact docOk_of_upsert_ok hok
    · intro h
      obtain ⟨db', hok⟩ := @upsert_ok_of_docOk db _ h
      exact exceptOk_iff.mpr ⟨db', hok⟩
  · intro db batch hbad
    unfold process_batch_visible
    cases hpbres : process_batch db batch with
    | error e => rfl
    | ok db' =>
      exfalso
      obtain ⟨d, hd, hnot⟩ := hbad
      exact hnot ((hpb db batch).mp (by simp [hpbres, exceptOk]) d hd)

/-- An empty store as created by the schema script on a fresh database. -/
def emptyStore : Store :=
  { nextRowid := 1, issues := [], signals := [], references_web := [], fts := [] }

/-- An empty database with an empty write trace. -/
def emptyDB : DB :=
  { store := emptyStore, trace := [] }

/-- A well-formed sample document. -/
def sampleDoc : RawDoc :=
  { issue_id := some ("a1")
    source := some ("sonar")
    source_rule_id := some ("S100")
    language := some ("py")
    title := some ("null deref")
    summary := some ("may crash")
    fix_steps := none
    severity := some ("high")
    confidence := none
    taxonomy_json := "tax1"
    frequency := some 3
    metadata_json := "meta1"
    updated_at := some ("2024-01-01")
    signals := [⟨some ("regex"), some ("npe")⟩]
    references := [] }

/-- A malformed document: the required title field is missing. -/
def badDoc : RawDoc :=
  { issue_id := some ("b2")
    source := some ("sonar")
    source_rule_id := none
    language := none
    title := none
    summary := none
    fix_steps := none
    severity := none
    confidence := none
    taxonomy_json := "tax2"
    frequency := none
    metadata_json := "meta2"
    updated_at := none
    signals := []
    references := [] }

theorem C1_batch_atomic_witness :
    (∃ d ∈ [sampleDoc, badDoc], ¬ docOk d = true)
      ∧ process_batch_visible emptyDB [sampleDoc, badDoc] = emptyDB := by
  have hbad : ∃ d ∈ [sampleDoc, badDoc], ¬ docOk d = true :=
    ⟨badDoc, by simp, by decide⟩
  exact ⟨hbad, C1_batch_atomic.2.2 emptyDB [sampleDoc, badDoc] hbad⟩

theorem updIssueRow_issue_id (doc : RawDoc) (title id : String) (r : IssueRow) :
    (updIssueRow doc title id r).issue_id = r.issue_id := by
  by_cases h : r.issue_id = id <;> simp [updIssueRow, h]

theorem updIssueRow_rowid (doc : RawDoc) (title id : String) (r : IssueRow) :
    (updIssueRow doc title id r).rowid = r.rowid := by
  by_cases h : r.issue_id = id <;> simp [updIssueRow, h]

theorem findIssue_map_upd {l : List IssueRow} {id : String} {r : IssueRow}
    (doc : RawDoc) (title : String) (h : findIssue l id = some r) :
    findIssue (l.map (updIssueRow doc title id)) id = some (updIssueRow doc title id r) := by
  induction l with
  | nil => simp [findIssue] at h
  | cons x xs ih =>
    by_cases hx : x.issue_id = id
    · simp [findIssue, hx] at h
      subst h
      simp [findIssue, updIssueRow_issue_id, hx]
    · simp [findIssue, hx] at h
      simp [findIssue, updIssueRow_issue_id, hx]
      exact ih h

/-- C10: upserting an identity already present keeps the stored source,
source_rule_id and language (omitted from the conflict-update clause) and
replaces title, summary, fix_steps, severity, confidence, frequency,
taxonomy_json, metadata_json and updated_at with the incoming values, at the
same rowid. -/
theorem C10_conflict_update_frame {db db' : DB} {doc : RawDoc} {id : String} {r : IssueRow}
    (hfind : findIssue db.store.issues id = some r)
    (hid : doc.issue_id = some id)
    (h : upsert_issue db doc = .ok db') :
    ∃ r', findIssue db'.store.issues id = some r' ∧
      r'.rowid = r.rowid ∧
      r'.source = r.source ∧
      r'.source_rule_id = r.source_rule_id ∧
      r'.language = r.language ∧
      doc.title = some r'.title ∧
      r'.summary = doc.summary ∧
      r'.fix_steps = doc.fix_steps ∧
      r'.severity = doc.severity ∧
      r'.confidence = doc.confidence ∧
      r'.frequency = doc.frequency ∧
      r'.taxonomy_json = doc.taxonomy_json ∧
      r'.metadata_json = doc.metadata_json ∧
      r'.updated_at = doc.updated_at := by
  obtain ⟨id0, src, title, sigs, refs, hid0, hsrc, htitle, hsig, href, -, -, -, hcase⟩ :=
    upsert_issue_ok_elim h
  rw [hid] at hid0
  injection hid0 with hid0
  subst hid0
  rcases hcase with ⟨-, hiss, -⟩ | ⟨hnone, -, -⟩
  · have hrid : r.issue_id = id := (findIssue_some hfind).2
    refine ⟨updIssueRow doc title id r, ?_, ?_⟩
    · rw [hiss]
      exact findIssue_map_upd doc title hfind
    · simp [updIssueRow, hrid, htitle]
  · rw [hnone] at hfind
    exact absurd hfind (by simp)

/-- A stored issue row used in concrete witnesses. -/
def sampleRow : IssueRow :=
  { rowid := 1
    issue_id := "a1"
    source := "collector"
    source_rule_id := some ("R7")
    language := some ("go")
    title := "old title"
    summary := none
    fix_steps := some ("old fix")
    severity := some ("low")
    confidence := some ("medium")
    taxonomy_json := "tax0"
    frequency := some 1
    metadata_json := "meta0"
    updated_at := some ("2023-12-31")
    }

/-- A database already holding sampleRow and its Index Row. -/
def sampleDB : DB :=
  { store :=
      { nextRowid := 2
        issues := [sampleRow]
        signals := []
        references_web := []
        fts := [{ rowid := 1, title := "old title", summary := "", fix_steps := "old fix",
                  signals_concat := "", language := "go" }] }
    trace := [] }

theorem C10_conflict_update_frame_witness :
    findIssue sampleDB.store.issues ("a1") = some sampleRow
      ∧ sampleDoc.issue_id = some ("a1")
      ∧ (∃ db', upsert_issue sampleDB sampleDoc = .ok db')
      ∧ (∀ db', upsert_issue sampleDB sampleDoc = .ok db' →
          ∃ r', findIssue db'.store.issues ("a1") = some r' ∧
            r'.rowid = sampleRow.rowid ∧
            r'.source = sampleRow.source ∧
            r'.source_rule_id = sampleRow.source_rule_id ∧
            r'.language = sampleRow.language ∧
            sampleDoc.title = some r'.title ∧
            r'.summary = sampleDoc.summary ∧
            r'.fix_steps = sampleDoc.fix_steps ∧
            r'.severity = sampleDoc.severity ∧
            r'.confidence = sampleDoc.confidence ∧
            r'.frequency = sampleDoc.frequency ∧
            r'.taxonomy_json = sampleDoc.taxonomy_json ∧
            r'.metadata_json = sampleDoc.metadata_json ∧
            r'.updated_at = sampleDoc.updated_at) := by
  refine ⟨by decide, by decide, ?_, ?_⟩
  · exact upsert_ok_of_docOk (by decide)
  · intro db' h
    exact C10_conflict_update_frame (by decide) (by decide) h

theorem sampleMem_batchSize {limit : Option ℚ} {rssBytes : Nat → ℚ} {s : ScanState}
    (h1 : 1 ≤ s.batchSize) :
    (sampleMem limit rssBytes s).batchSize ≤ s.batchSize
      ∧ 1 ≤ (sampleMem limit rssBytes s).batchSize := by
  unfold sampleMem
  by_cases ht : s.total % LOG_INTERVAL = 0
  · simp only [ht, if_true]
    cases limit with
    | none => exact ⟨le_refl _, h1⟩
    | some l =>
      by_cases hc : ¬ l = 0 ∧ MemoryMonitor.rss_mb (rssBytes s.total) ≥ l
      · simp only [hc, if_true]
        refine ⟨Nat.max_le.mpr ⟨h1, Nat.div_le_self _ _⟩, Nat.le_max_left _ _⟩
      · simp only [hc, if_false]
        exact ⟨le_refl _, h1⟩
  · simp only [ht, if_false]
    exact ⟨le_refl _, h1⟩

theorem scanStep_batchSize {state : List (String × Nat)} {limit : Option ℚ}
    {rssBytes : Nat → ℚ} {s : ScanState} {f : FileEntry} (h1 : 1 ≤ s.batchSize) :
    (scanStep state limit rssBytes s f).1.batchSize ≤ s.batchSize
      ∧ 1 ≤ (scanStep state limit rssBytes s f).1.batchSize := by
  unfold scanStep
  by_cases hch : ¬ lookupState state f.path = some f.mtime_ns
  · simp only [hch, if_true]
    cases hld : load_json f with
    | error e => exact ⟨le_refl _, h1⟩
    | ok doc =>
      by_cases hfl : (s.batch ++ [doc]).length ≥ s.batchSize
      · simp only [hfl]
        cases hpb : process_batch s.db (s.batch ++ [doc]) with
        | error e => refine ⟨?_, ?_⟩ <;> simp [h1]
        | ok db' => simpa using sampleMem_batchSize (s := { s with
            total := s.total + 1
            new_state := insertState s.new_state f.path f.mtime_ns
            removed_keys := s.removed_keys.filter (fun k => ¬ k = f.path)
            loads := s.loads ++ [(f.path, doc)]
            batch := []
            changed := s.changed + 1
            db := db'
            flushed := s.flushed ++ (s.batch ++ [doc]) }) h1
      · simp only [hfl]
        simpa using sampleMem_batchSize (s := { s with
            total := s.total + 1
            new_state := insertState s.new_state f.path f.mtime_ns
            removed_keys := s.removed_keys.filter (fun k => ¬ k = f.path)
            loads := s.loads ++ [(f.path, doc)]
            batch := s.batch ++ [doc]
            changed := s.changed + 1 }) h1
  · simp only [hch, if_false]
    simpa using sampleMem_batchSize (s := { s with
        total := s.total + 1
        new_state := insertState s.new_state f.path f.mtime_ns
        removed_keys := s.removed_keys.filter (fun k => ¬ k = f.path) }) h1

theorem scanCorpus_batchSize {state : List (String × Nat)} {limit : Option ℚ}
    {rssBytes : Nat → ℚ} :
    ∀ (corpus : List FileEntry) (s : ScanState), 1 ≤ s.batchSize →
      (scanCorpus state limit rssBytes s corpus).1.batchSize ≤ s.batchSize
        ∧ 1 ≤ (scanCorpus state limit rssBytes s corpus).1.batchSize := by
  intro corpus
  induction corpus with
  | nil => intro s h1; exact ⟨le_refl _, h1⟩
  | cons f fs ih =>
    intro s h1
    have hs := @scanStep_batchSize state limit rssBytes s f h1
    unfold scanCorpus
    cases hstep : scanStep state limit rssBytes s f with
    | mk s' err =>
      rw [hstep] at hs
      cases err with
      | none =>
        simp only []
        have hrec := ih s' hs.2
        exact ⟨hrec.1.trans hs.1, hrec.2⟩
      | some e => exact hs

theorem sampleMem_halves {limit : Option ℚ} {rssBytes : Nat → ℚ} {s : ScanState} {l : ℚ}
    (hl : limit = some l) (hl0 : ¬ l = 0) (ht : s.total % LOG_INTERVAL = 0)
    (hr : MemoryMonitor.rss_mb (rssBytes s.total) ≥ l) :
    (sampleMem limit rssBytes s).batchSize = max 1 (s.batchSize / 2) := by
  subst hl
  simp [sampleMem, ht, hl0, hr]

theorem scanStep_err_cases {state : List (String × Nat)} {limit : Option ℚ}
    {rssBytes : Nat → ℚ} {s : ScanState} {f : FileEntry} {e : RunErr}
    (h : (scanStep state limit rssBytes s f).2 = some e) :
    (∃ le, e = RunErr.load le) ∨ (∃ ue, e = RunErr.upsert ue) := by
  unfold scanStep at h
  by_cases hch : ¬ lookupState state f.path = some f.mtime_ns
  · simp only [hch, if_true] at h
    cases hld : load_json f with
    | error le =>
      rw [hld] at h
      simp at h
      exact Or.inl ⟨le, h.symm⟩
    | ok doc =>
      rw [hld] at h
      by_cases hfl : ((s.batch ++ [doc]).length ≥ s.batchSize)
      · simp only [hfl] at h
        cases hpb : process_batch s.db (s.batch ++ [doc]) with
        | error ue =>
          rw [hpb] at h
          simp at h
          exact Or.inr ⟨ue, h.symm⟩
        | ok db' =>
          rw [hpb] at h
          simp at h
      · simp only [hfl] at h
        simp at h
  · simp only [hch, if_false] at h
    simp at h

/-- C7: whenever a sample (taken every LOG_INTERVAL files) reads resident
memory at or above the configured nonzero hard limit, the batch size used for
all subsequent flushes is halved with a floor of one; across an entire scan
the batch size is monotonically non-increasing; and a scan step can only fail
by loading or upserting — a memory condition never aborts the run mid-scan. -/
theorem C7_adaptive_batch :
    (∀ (limit : Option ℚ) (rssBytes : Nat → ℚ) (s : ScanState) (l : ℚ),
        limit = some l → ¬ l = 0 → s.total % LOG_INTERVAL = 0 →
        MemoryMonitor.rss_mb (rssBytes s.total) ≥ l →
        (sampleMem limit rssBytes s).batchSize = max 1 (s.batchSize / 2))
    ∧ (∀ (state : List (String × Nat)) (limit : Option ℚ) (rssBytes : Nat → ℚ)
        (corpus : List FileEntry) (s : ScanState), 1 ≤ s.batchSize →
        (scanCorpus state limit rssBytes s corpus).1.batchSize ≤ s.batchSize)
    ∧ (∀ (state : List (String × Nat)) (limit : Option ℚ) (rssBytes : Nat → ℚ)
        (s : ScanState) (f : FileEntry) (e : RunErr),
        (scanStep state limit rssBytes s f).2 = some e →
        (∃ le, e = RunErr.load le) ∨ (∃ ue, e = RunErr.upsert ue)) := by
  refine ⟨?_, ?_, ?_⟩
  · intro limit rssBytes s l hl hl0 ht hr
    exact sampleMem_halves hl hl0 ht hr
  · intro state limit rssBytes corpus s h1
    exact (scanCorpus_batchSize corpus s h1).1
  · intro state limit rssBytes s f e h
    exact scanStep_err_cases h

/-- A scan state mid-run: 5000 files scanned, initial batch size 100. -/
def sampleScanState : ScanState :=
  { total := 5000
    changed := 0
    new_state := []
    removed_keys := []
    batch := []
    batchSize := 100
    db := emptyDB
    loads := []
    flushed := [] }

theorem C7_adaptive_batch_witness :
    (sampleMem (some 500000) (fun _ => (524288000000 : ℚ)) sampleScanState).batchSize
        = max 1 (sampleScanState.batchSize / 2)
      ∧ max 1 (sampleScanState.batchSize / 2) = 50
      ∧ (scanCorpus [] (some 500000) (fun _ => (524288000000 : ℚ))
          sampleScanState []).1.batchSize ≤ sampleScanState.batchSize := by
  refine ⟨?_, by decide, ?_⟩
  · exact C7_adaptive_batch.1 (some 500000) (fun _ => (524288000000 : ℚ)) sampleScanState
      500000 rfl (by norm_num) (by decide) (by norm_num [MemoryMonitor.rss_mb, sampleScanState])
  · exact C7_adaptive_batch.2.1 [] (some 500000) (fun _ => (524288000000 : ℚ)) []
      sampleScanState (by decide)

theorem sampleMem_eq (limit : Option ℚ) (rssBytes : Nat → ℚ) (s : ScanState) :
    ∃ bs, sampleMem limit rssBytes s = { s with batchSize := bs } := by
  unfold sampleMem
  by_cases ht : s.total % LOG_INTERVAL = 0
  · simp only [ht, if_true]
    cases limit with
    | none => exact ⟨s.batchSize, rfl⟩
    | some l =>
      by_cases hc : ¬ l = 0 ∧ MemoryMonitor.rss_mb (rssBytes s.total) ≥ l
      · simp only [hc, if_true]
        exact ⟨max 1 (s.batchSize / 2), rfl⟩
      · simp only [hc, if_false]
        exact ⟨s.batchSize, rfl⟩
  · simp only [ht, if_false]
    exact ⟨s.batchSize, rfl⟩

theorem sampleMem_fields (limit : Option ℚ) (rssBytes : Nat → ℚ) (s : ScanState) :
    (sampleMem limit rssBytes s).db = s.db
      ∧ (sampleMem limit rssBytes s).loads = s.loads
      ∧ (sampleMem limit rssBytes s).changed = s.changed
      ∧ (sampleMem limit rssBytes s).batch = s.batch
      ∧ (sampleMem limit rssBytes s).flushed = s.flushed
      ∧ (sampleMem limit rssBytes s).total = s.total
      ∧ (sampleMem limit rssBytes s).new_state = s.new_state
      ∧ (sampleMem limit rssBytes s).removed_keys = s.removed_keys := by
  obtain ⟨bs, h⟩ := sampleMem_eq limit rssBytes s
  rw [h]
  exact ⟨rfl, rfl, rfl, rfl, rfl, rfl, rfl, rfl⟩

theorem scanStep_unchanged {state : List (String × Nat)} {limit : Option ℚ}
    {rssBytes : Nat → ℚ} {s : ScanState} {f : FileEntry}
    (h : lookupState state f.path = some f.mtime_ns) :
    scanStep state limit rssBytes s f =
      (sampleMem limit rssBytes { s with
          total := s.total + 1
          new_state := insertState s.new_state f.path f.mtime_ns
          removed_keys := s.removed_keys.filter (fun k => ¬ k = f.path) }, none) := by
  unfold scanStep
  simp [h]

theorem scanStep_oversized {state : List (String × Nat)} {limit : Option ℚ}
    {rssBytes : Nat → ℚ} {s : ScanState} {f : FileEntry}
    (hch : ¬ lookupState state f.path = some f.mtime_ns)
    (hsz : f.size > MAX_JSON_BYTES) :
    scanStep state limit rssBytes s f =
      ({ s with
          total := s.total + 1
          new_state := insertState s.new_state f.path f.mtime_ns
          removed_keys := s.removed_keys.filter (fun k => ¬ k = f.path) },
       some (RunErr.load .sizeExceeded)) := by
  unfold scanStep
  simp [hch, load_json, hsz]

theorem scanCorpus_unchanged {state : List (String × Nat)} {limit : Option ℚ}
    {rssBytes : Nat → ℚ} :
    ∀ (corpus : List FileEntry) (s : ScanState),
      (∀ f ∈ corpus, lookupState state f.path = some f.mtime_ns) →
      (scanCorpus state limit rssBytes s corpus).2 = none
        ∧ (scanCorpus state limit rssBytes s corpus).1.db = s.db
        ∧ (scanCorpus state limit rssBytes s corpus).1.loads = s.loads
        ∧ (scanCorpus state limit rssBytes s corpus).1.changed = s.changed
        ∧ (scanCorpus state limit rssBytes s corpus).1.batch = s.batch
        ∧ (scanCorpus state limit rssBytes s corpus).1.flushed = s.flushed := by
  intro corpus
  induction corpus with
  | nil => intro s hall; exact ⟨rfl, rfl, rfl, rfl, rfl, rfl⟩
  | cons f fs ih =>
    intro s hall
    have hstep := @scanStep_unchanged state limit rssBytes s f
      (hall f (List.mem_cons_self _ _))
    unfold scanCorpus
    rw [hstep]
    simp only []
    have hfields := sampleMem_fields limit rssBytes { s with
      total := s.total + 1
      new_state := insertState s.new_state f.path f.mtime_ns
      removed_keys := s.removed_keys.filter (fun k => ¬ k = f.path) }
    have hrec := ih (sampleMem limit rssBytes { s with
      total := s.total + 1
      new_state := insertState s.new_state f.path f.mtime_ns
      removed_keys := s.removed_keys.filter (fun k => ¬ k = f.path) })
      (fun g hg => hall g (List.mem_cons_of_mem _ hg))
    refine ⟨hrec.1, ?_, ?_, ?_, ?_, ?_⟩
    · rw [hrec.2.1, hfields.1]
    · rw [hrec.2.2.1, hfields.2.1]
    · rw [hrec.2.2.2.1, hfields.2.2.1]
    · rw [hrec.2.2.2.2.1, hfields.2.2.2.1]
    · rw [hrec.2.2.2.2.2, hfields.2.2.2.2.1]

theorem scanCorpus_cons (state : List (String × Nat)) (limit : Option ℚ)
    (rssBytes : Nat → ℚ) (s : ScanState) (f : FileEntry) (fs : List FileEntry) :
    scanCorpus state limit rssBytes s (f :: fs) =
      match scanStep state limit rssBytes s f with
      | (s', none) => scanCorpus state limit rssBytes s' fs
      | (s', some e) => (s', some e) := rfl

theorem scanCorpus_append_ok {state : List (String × Nat)} {limit : Option ℚ}
    {rssBytes : Nat → ℚ} (l1 l2 : List FileEntry) :
    ∀ s : ScanState, (scanCorpus state limit rssBytes s l1).2 = none →
      scanCorpus state limit rssBytes s (l1 ++ l2) =
        scanCorpus state limit rssBytes (scanCorpus state limit rssBytes s l1).1 l2 := by
  induction l1 with
  | nil => intro s h; rfl
  | cons f fs ih =>
    intro s h
    rw [scanCorpus_cons] at h
    rw [List.cons_append, scanCorpus_cons]
    cases hstep : scanStep state limit rssBytes s f with
    | mk s' err =>
      rw [hstep] at h
      cases err with
      | none =>
        simp only [] at h ⊢
        rw [ih s' h]
        rw [scanCorpus_cons, hstep]
      | some e => simp at h

/-- C8: the Document Loader fails with a size error exactly when a file's byte
size strictly exceeds the 1,000,000-byte ceiling; a file of exactly the
ceiling loads successfully; the size check precedes the read, so an oversized
changed file aborts its scan step leaving the store and the pending batch
untouched; and a run that meets an oversized changed file after only
unchanged files fails with the size error with nothing committed. -/
theorem C8_size_ceiling :
    (∀ f : FileEntry, load_json f = .error .sizeExceeded ↔ f.size > MAX_JSON_BYTES)
    ∧ (∀ (f : FileEntry) (d : RawDoc), f.size = MAX_JSON_BYTES → f.parsed = some d →
        load_json f = .ok d)
    ∧ (∀ (state : List (String × Nat)) (limit : Option ℚ) (rssBytes : Nat → ℚ)
        (s : ScanState) (f : FileEntry),
        ¬ lookupState state f.path = some f.mtime_ns → f.size > MAX_JSON_BYTES →
        (scanStep state limit rssBytes s f).2 = some (RunErr.load .sizeExceeded)
          ∧ (scanStep state limit rssBytes s f).1.db = s.db
          ∧ (scanStep state limit rssBytes s f).1.batch = s.batch
          ∧ (scanStep state limit rssBytes s f).1.flushed = s.flushed)
    ∧ (∀ (pre post : List FileEntry) (f : FileEntry) (state : List (String × Nat))
        (dbExists : Bool) (bs : Nat) (limit : Option ℚ) (rssBytes : Nat → ℚ)
        (ftsOk dbOk : Bool) (st0 : Store),
        preflightFails (pre ++ f :: post).length bs limit = false →
        (∀ g ∈ pre, lookupState state g.path = some g.mtime_ns) →
        ¬ lookupState state f.path = some f.mtime_ns → f.size > MAX_JSON_BYTES →
        (mainRun (pre ++ f :: post) state dbExists bs limit rssBytes ftsOk dbOk st0).result
            = .error (RunErr.load .sizeExceeded)
          ∧ (mainRun (pre ++ f :: post) state dbExists bs limit rssBytes ftsOk dbOk st0).db
            = { store := st0, trace := [] }) := by
  refine ⟨?_, ?_, ?_, ?_⟩
  · intro f
    unfold load_json
    by_cases hsz : f.size > MAX_JSON_BYTES
    · simp [hsz]
    · simp only [hsz, if_false]
      cases hp : f.parsed <;> simp
  · intro f d hsz hp
    unfold load_json
    rw [hp]
    simp [hsz]
  · intro state limit rssBytes s f hch hsz
    rw [scanStep_oversized hch hsz]
    simp
  · intro pre post f state dbE bs limit rssBytes ftsOk dbOk st0 hpf hall hch hsz
    have hu := @scanCorpus_unchanged state limit rssBytes pre (initScan state bs st0) hall
    have happ := @scanCorpus_append_ok state limit rssBytes pre (f :: post)
      (initScan state bs st0) hu.1
    obtain ⟨sE, hE, hEdb⟩ :
        ∃ sE, scanCorpus state limit rssBytes (initScan state bs st0) (pre ++ f :: post)
            = (sE, some (RunErr.load .sizeExceeded))
          ∧ sE.db = { store := st0, trace := [] } := by
      rw [happ, scanCorpus_cons, scanStep_oversized hch hsz]
      exact ⟨_, rfl, by simpa using hu.2.1⟩
    unfold mainRun runScan
    rw [hpf, hE]
    simp only [Bool.false_eq_true, if_false]
    exact ⟨trivial, hEdb⟩

/-- A changed file one byte over the ceiling. -/
def bigFile : FileEntry :=
  { path := "issues/s/l/a1.json"
    mtime_ns := 7
    size := 1000001
    parsed := some sampleDoc }

theorem C8_size_ceiling_witness :
    load_json { bigFile with size := MAX_JSON_BYTES } = .ok sampleDoc
      ∧ (mainRun [bigFile] [] true 10 none (fun _ => 0) true true emptyStore).result
          = .error (RunErr.load .sizeExceeded)
      ∧ (mainRun [bigFile] [] true 10 none (fun _ => 0) true true emptyStore).db
          = { store := emptyStore, trace := [] } := by
  refine ⟨C8_size_ceiling.2.1 _ sampleDoc rfl rfl, ?_⟩
  have h := C8_size_ceiling.2.2.2 [] [] bigFile [] true 10 none (fun _ => 0) true true
    emptyStore (by decide) (by simp) (by decide) (by decide)
  simpa using h

/-- The loop condition: the file's stored mtime differs (changed or new). -/
def changedB (state : List (String × Nat)) (f : FileEntry) : Bool :=
  decide (¬ lookupState state f.path = some f.mtime_ns)

/-- The mtime recorded for a path by the last corpus entry bearing it. -/
def lastMtimeIn : List FileEntry → String → Option Nat
  | [], _ => none
  | f :: fs, p =>
    match lastMtimeIn fs p with
    | some m => some m
    | none => if f.path = p then some f.mtime_ns else none

theorem scanStep_ok_elim {state : List (String × Nat)} {limit : Option ℚ}
    {rssBytes : Nat → ℚ} {s s' : ScanState} {f : FileEntry}
    (h : scanStep state limit rssBytes s f = (s', none)) :
    ∃ sMid : ScanState,
      s' = sampleMem limit rssBytes sMid
      ∧ sMid.total = s.total + 1
      ∧ sMid.new_state = insertState s.new_state f.path f.mtime_ns
      ∧ sMid.removed_keys = s.removed_keys.filter (fun k => ¬ k = f.path)
      ∧ sMid.batchSize = s.batchSize
      ∧ ((changedB state f = false
            ∧ sMid.loads = s.loads ∧ sMid.changed = s.changed ∧ sMid.batch = s.batch
            ∧ sMid.flushed = s.flushed ∧ sMid.db = s.db)
        ∨ (∃ doc, changedB state f = true ∧ load_json f = .ok doc
            ∧ sMid.loads = s.loads ++ [(f.path, doc)]
            ∧ sMid.changed = s.changed + 1
            ∧ ((sMid.batch = s.batch ++ [doc] ∧ sMid.db = s.db ∧ sMid.flushed = s.flushed)
              ∨ (∃ db', process_batch s.db (s.batch ++ [doc]) = .ok db'
                  ∧ sMid.batch = [] ∧ sMid.db = db'
                  ∧ sMid.flushed = s.flushed ++ (s.batch ++ [doc]))))) := by
  unfold scanStep at h
  by_cases hch : ¬ lookupState state f.path = some f.mtime_ns
  · simp only [hch, if_true] at h
    cases hld : load_json f with
    | error e => rw [hld] at h; simp at h
    | ok doc =>
      rw [hld] at h
      by_cases hfl : ((s.batch ++ [doc]).length ≥ s.batchSize)
      · simp only [hfl, if_true] at h
        cases hpb : process_batch s.db (s.batch ++ [doc]) with
        | error e => rw [hpb] at h; simp at h
        | ok db' =>
          rw [hpb] at h
          simp only [] at h
          injection h with h1 h2
          refine ⟨_, h1.symm, rfl, rfl, rfl, rfl,
            Or.inr ⟨doc, by simp [changedB, hch], rfl, rfl, rfl,
              Or.inr ⟨db', hpb, rfl, rfl, rfl⟩⟩⟩
      · simp only [hfl, if_false] at h
        injection h with h1 h2
        refine ⟨_, h1.symm, rfl, rfl, rfl, rfl,
          Or.inr ⟨doc, by simp [changedB, hch], rfl, rfl, rfl,
            Or.inl ⟨rfl, rfl, rfl⟩⟩⟩
  · simp only [hch, if_false] at h
    injection h with h1 h2
    refine ⟨_, h1.symm, rfl, rfl, rfl, rfl,
      Or.inl ⟨by simpa [changedB] using hch, rfl, rfl, rfl, rfl, rfl⟩⟩

theorem lookupState_filter_ne {st : List (String × Nat)} {key p : String} (h : ¬ key = p) :
    lookupState (st.filter (fun kv => ¬ kv.1 = key)) p = lookupState st p := by
  induction st with
  | nil => rfl
  | cons kv rest ih =>
    by_cases h1 : kv.1 = key
    · have h2 : ¬ kv.1 = p := by rw [h1]; exact h
      rw [List.filter_cons_of_neg (by simp [h1])]
      rw [ih]
      simp only [lookupState, h2, if_false]
    · rw [List.filter_cons_of_pos (by simp [h1])]
      simp only [lookupState]
      by_cases h2 : kv.1 = p
      · simp only [h2, if_true]
      · simp only [h2, if_false]
        exact ih

theorem lookupState_insert (st : List (String × Nat)) (key : String) (v : Nat) (p : String) :
    lookupState (insertState st key v) p = if key = p then some v else lookupState st p := by
  unfold insertState
  by_cases h : key = p
  · simp [lookupState, h]
  · simp only [lookupState, h, if_false]
    exact lookupState_filter_ne h

theorem filter_filter_all (rk : List String) (f : FileEntry) (fs : List FileEntry) :
    (rk.filter (fun k => ¬ k = f.path)).filter (fun k => fs.all (fun g => ¬ k = g.path))
      = rk.filter (fun k => (f :: fs).all (fun g => ¬ k = g.path)) := by
  induction rk with
  | nil => rfl
  | cons k rest ih =>
    by_cases h1 : k = f.path
    · rw [List.filter_cons_of_neg (by simp [h1])]
      rw [List.filter_cons_of_neg (by simp [h1])]
      exact ih
    · rw [List.filter_cons_of_pos (by simp [h1])]
      by_cases h2 : fs.all (fun g => ¬ k = g.path) = true
      · rw [List.filter_cons_of_pos (by simpa using h2)]
        rw [List.filter_cons_of_pos
          (by simp only [List.all_cons, Bool.and_eq_true]
              exact ⟨by simpa using h1, h2⟩)]
        rw [ih]
      · rw [List.filter_cons_of_neg (by simpa using h2)]
        rw [List.filter_cons_of_neg
          (by simp only [List.all_cons, Bool.and_eq_true]
              intro hcontra
              exact h2 hcontra.2)]
        exact ih

theorem scanCorpus_ok_master {state : List (String × Nat)} {limit : Option ℚ}
    {rssBytes : Nat → ℚ} :
    ∀ (corpus : List FileEntry) (s sF : ScanState),
      scanCorpus state limit rssBytes s corpus = (sF, none) →
      sF.loads.map Prod.fst = s.loads.map Prod.fst
          ++ (corpus.filter (changedB state)).map FileEntry.path
      ∧ sF.changed = s.changed + (corpus.filter (changedB state)).length
      ∧ (∀ p, lookupState sF.new_state p =
          match lastMtimeIn corpus p with
          | some m => some m
          | none => lookupState s.new_state p)
      ∧ sF.removed_keys = s.removed_keys.filter (fun k => corpus.all (fun g => ¬ k = g.path))
      ∧ (s.flushed ++ s.batch = s.loads.map Prod.snd →
          sF.flushed ++ sF.batch = sF.loads.map Prod.snd) := by
  intro corpus
  induction corpus with
  | nil =>
    intro s sF h
    unfold scanCorpus at h
    injection h with h1 h2
    subst h1
    refine ⟨by simp, by simp, ?_, by simp, fun hG => hG⟩
    intro p
    simp [lastMtimeIn]
  | cons f fs ih =>
    intro s sF h
    rw [scanCorpus_cons] at h
    cases hstep : scanStep state limit rssBytes s f with
    | mk s1 err =>
      rw [hstep] at h
      cases err with
      | some e => simp at h
      | none =>
        simp only [] at h
        obtain ⟨sMid, hsamp, htot, hns, hrem, hbs, hbranch⟩ := scanStep_ok_elim hstep
        subst hsamp
        have hf := sampleMem_fields limit rssBytes sMid
        obtain ⟨ihl, ihc, ihn, ihr, ihg⟩ := ih _ sF h
        have hnewstate : ∀ p, lookupState sF.new_state p =
            match lastMtimeIn (f :: fs) p with
            | some m => some m
            | none => lookupState s.new_state p := by
          intro p
          have := ihn p
          rw [hf.2.2.2.2.2.2.1, hns] at this
          cases hl : lastMtimeIn fs p with
          | some m =>
            rw [hl] at this
            simp only [lastMtimeIn, hl]
            exact this
          | none =>
            rw [hl] at this
            rw [lookupState_insert] at this
            simp only [lastMtimeIn, hl]
            by_cases hp : f.path = p
            · rw [if_pos hp] at this
              rw [if_pos hp]
              simpa using this
            · rw [if_neg hp] at this
              rw [if_neg hp]
              simpa using this
        have hremoved : sF.removed_keys =
            s.removed_keys.filter (fun k => (f :: fs).all (fun g => ¬ k = g.path)) := by
          rw [ihr, hf.2.2.2.2.2.2.2, hrem]
          exact filter_filter_all _ _ _
        rcases hbranch with ⟨hchF, hlo, hch, hba, hfl, hdb⟩ |
          ⟨doc, hchT, hld, hlo, hch, hsub⟩
        · rw [List.filter_cons_of_neg (by simp [hchF])]
          refine ⟨?_, ?_, hnewstate, hremoved, ?_⟩
          · rw [ihl, hf.2.1, hlo]
          · rw [ihc, hf.2.2.1, hch]
          · intro hG
            apply ihg
            rw [hf.2.1, hf.2.2.2.1, hf.2.2.2.2.1, hlo, hba, hfl]
            exact hG
        · rw [List.filter_cons_of_pos (by simp [hchT])]
          refine ⟨?_, ?_, hnewstate, hremoved, ?_⟩
          · rw [ihl, hf.2.1, hlo]
            simp [List.append_assoc]
          · rw [ihc, hf.2.2.1, hch]
            simp [List.length_cons]
            omega
          · intro hG
            apply ihg
            rw [hf.2.1, hf.2.2.2.1, hf.2.2.2.2.1, hlo]
            rcases hsub with ⟨hba, hdb, hfl⟩ | ⟨db', hpb, hba, hdb, hfl⟩
            · rw [hba, hfl, List.map_append]
              rw [← List.append_assoc, hG]
              simp
            · rw [hba, hfl, List.map_append]
              rw [List.append_nil, ← List.append_assoc, hG]
              simp

/-- C4: in a scan over a corpus with distinct paths, a file whose stored
mtime equals its current mtime is never loaded; a file whose stored mtime
differs or is absent is loaded exactly once; and the flushed batches plus the
pending remainder are exactly the loaded documents, in order. -/
theorem C4_change_detection :
    ∀ (state : List (String × Nat)) (limit : Option ℚ) (rssBytes : Nat → ℚ)
      (bs : Nat) (st0 : Store) (corpus : List FileEntry) (sF : ScanState),
      (corpus.map FileEntry.path).Nodup →
      scanCorpus state limit rssBytes (initScan state bs st0) corpus = (sF, none) →
      (∀ f ∈ corpus, lookupState state f.path = some f.mtime_ns →
          ¬ f.path ∈ sF.loads.map Prod.fst)
      ∧ (∀ f ∈ corpus, ¬ lookupState state f.path = some f.mtime_ns →
          (sF.loads.map Prod.fst).count f.path = 1)
      ∧ sF.flushed ++ sF.batch = sF.loads.map Prod.snd := by
  intro state limit rssBytes bs st0 corpus sF hnd h
  obtain ⟨hl, hc, hn, hr, hg⟩ := scanCorpus_ok_master corpus _ sF h
  have hloads : sF.loads.map Prod.fst = (corpus.filter (changedB state)).map FileEntry.path := by
    rw [hl]
    simp [initScan]
  have hsub : List.Sublist ((corpus.filter (changedB state)).map FileEntry.path)
      (corpus.map FileEntry.path) :=
    (List.filter_sublist _).map _
  refine ⟨?_, ?_, ?_⟩
  · intro f hf hmt hmem
    rw [hloads] at hmem
    obtain ⟨g, hg1, hg2⟩ := List.mem_map.mp hmem
    have hg3 := List.mem_filter.mp hg1
    have : g = f := List.inj_on_of_nodup_map hnd hg3.1 hf hg2
    subst this
    have : changedB state g = false := by simp [changedB, hmt]
    rw [this] at hg3
    exact absurd hg3.2 (by simp)
  · intro f hf hmt
    rw [hloads]
    apply List.count_eq_one_of_mem (hnd.sublist hsub)
    exact List.mem_map.mpr ⟨f, List.mem_filter.mpr ⟨hf, by simp [changedB, hmt]⟩, rfl⟩
  · apply hg
    simp [initScan]

/-- An unchanged corpus file: its stored mtime matches. -/
def fileU : FileEntry :=
  { path := "issues/s/l/u1.json", mtime_ns := 5, size := 10, parsed := some sampleDoc }

/-- A new corpus file: its path is absent from the Change State. -/
def fileN : FileEntry :=
  { path := "issues/s/l/n1.json", mtime_ns := 6, size := 12, parsed := some sampleDoc }

/-- The prior Change State used in the change-detection witness. -/
def stateW : List (String × Nat) :=
  [(fileU.path, 5)]

theorem C4_change_detection_witness :
    ¬ fileU.path ∈ ((scanCorpus stateW none (fun _ => 0)
          (initScan stateW 10 emptyStore) [fileU, fileN]).1.loads.map Prod.fst)
      ∧ (((scanCorpus stateW none (fun _ => 0)
          (initScan stateW 10 emptyStore) [fileU, fileN]).1.loads.map Prod.fst).count
            fileN.path = 1)
      ∧ (scanCorpus stateW none (fun _ => 0)
            (initScan stateW 10 emptyStore) [fileU, fileN]).1.flushed
          ++ (scanCorpus stateW none (fun _ => 0)
            (initScan stateW 10 emptyStore) [fileU, fileN]).1.batch
        = ((scanCorpus stateW none (fun _ => 0)
            (initScan stateW 10 emptyStore) [fileU, fileN]).1.loads.map Prod.snd) := by
  have h := C4_change_detection stateW none (fun _ => 0) 10 emptyStore [fileU, fileN]
    (scanCorpus stateW none (fun _ => 0) (initScan stateW 10 emptyStore) [fileU, fileN]).1
    (by decide) rfl
  exact ⟨h.1 fileU (by simp) (by decide), h.2.1 fileN (by simp) (by decide), h.2.2⟩

theorem finalFlush_ok_elim {s s' : ScanState} (h : finalFlush s = (s', none)) :
    (s.batch = [] ∧ s' = s)
    ∨ (∃ db', process_batch s.db s.batch = .ok db'
        ∧ s' = { s with db := db', flushed := s.flushed ++ s.batch, batch := [] }) := by
  unfold finalFlush at h
  by_cases hb : s.batch = []
  · rw [if_pos hb] at h
    injection h with h1 h2
    exact Or.inl ⟨hb, h1.symm⟩
  · rw [if_neg hb] at h
    cases hpb : process_batch s.db s.batch with
    | error e => rw [hpb] at h; simp at h
    | ok db' =>
      rw [hpb] at h
      injection h with h1 h2
      exact Or.inr ⟨db', rfl, h1.symm⟩

theorem runScan_changed_zero {corpus : List FileEntry} {state : List (String × Nat)}
    {bs : Nat} {limit : Option ℚ} {rssBytes : Nat → ℚ} {st0 : Store} {s : ScanState}
    (h : runScan corpus state bs limit rssBytes st0 = (s, none))
    (hch : s.changed = 0) :
    s.db = { store := st0, trace := [] } ∧ s.loads = [] ∧ s.flushed = []
      ∧ s.batch = [] := by
  unfold runScan at h
  cases hscan : scanCorpus state limit rssBytes (initScan state bs st0) corpus with
  | mk s1 err =>
    rw [hscan] at h
    cases err with
    | some e => simp at h
    | none =>
      have hch1 : s1.changed = s.changed := by
        rcases finalFlush_ok_elim h with ⟨hb, hs⟩ | ⟨db', hpb, hs⟩
        · rw [hs]
        · rw [hs]
      obtain ⟨hl, hc, hn, hr, hg⟩ := scanCorpus_ok_master corpus _ s1 hscan
      have hlen : (corpus.filter (changedB state)).length = 0 := by
        rw [hch1, hch] at hc
        simpa [initScan] using hc.symm
      have hallu : ∀ f ∈ corpus, lookupState state f.path = some f.mtime_ns := by
        intro f hf
        have hnil := List.length_eq_zero.mp hlen
        have := List.filter_eq_nil_iff.mp hnil f hf
        simpa [changedB] using this
      have hu := @scanCorpus_unchanged state limit rssBytes corpus
        (initScan state bs st0) hallu
      rw [hscan] at hu
      have hbatch : s1.batch = [] := by
        have := hu.2.2.2.2.1
        simpa [initScan] using this
      simp only [] at h
      unfold finalFlush at h
      rw [if_pos hbatch] at h
      injection h with h1 h2
      subst h1
      refine ⟨?_, ?_, ?_, hbatch⟩
      · have := hu.2.1
        simpa [initScan] using this
      · have := hu.2.2.1
        simpa [initScan] using this
      · have := hu.2.2.2.2.2
        simpa [initScan] using this

/-- C3: whenever either post-run integrity check would fail, the run never
persists the Change State — the on-disk state file equals its pre-run value —
and the only way such a run can still report success is the no-op short
circuit, in which nothing was written at all; with the state file unchanged, a
following run is the very same function application, so it recomputes the
same changed set. -/
theorem C3_integrity_gate (corpus : List FileEntry) (state : List (String × Nat))
    (dbE : Bool) (bs : Nat) (limit : Option ℚ) (rssBytes : Nat → ℚ)
    (ftsOk dbOk : Bool) (st0 : Store)
    (hfail : ¬ (ftsOk = true ∧ dbOk = true)) :
    (mainRun corpus state dbE bs limit rssBytes ftsOk dbOk st0).stateFile = state
      ∧ ((mainRun corpus state dbE bs limit rssBytes ftsOk dbOk st0).result = .ok () →
          (mainRun corpus state dbE bs limit rssBytes ftsOk dbOk st0).db
              = { store := st0, trace := [] }
            ∧ (mainRun corpus state dbE bs limit rssBytes ftsOk dbOk st0).changed = 0)
      ∧ (∀ (dbE' : Bool) (bs' : Nat) (limit' : Option ℚ) (rss' : Nat → ℚ)
            (ftsOk' dbOk' : Bool),
          mainRun corpus (mainRun corpus state dbE bs limit rssBytes ftsOk dbOk st0).stateFile
              dbE' bs' limit' rss' ftsOk' dbOk' st0
            = mainRun corpus state dbE' bs' limit' rss' ftsOk' dbOk' st0) := by
  have hci : ∃ e, check_integrity ftsOk dbOk = .error e := by
    cases ftsOk with
    | false => exact ⟨.ftsIntegrity, rfl⟩
    | true =>
      cases dbOk with
      | false => exact ⟨.dbIntegrity, rfl⟩
      | true => exact absurd ⟨rfl, rfl⟩ hfail
  obtain ⟨eI, hciE⟩ := hci
  have hkey : (mainRun corpus state dbE bs limit rssBytes ftsOk dbOk st0).stateFile = state
      ∧ ((mainRun corpus state dbE bs limit rssBytes ftsOk dbOk st0).result = .ok () →
          (mainRun corpus state dbE bs limit rssBytes ftsOk dbOk st0).db
              = { store := st0, trace := [] }
            ∧ (mainRun corpus state dbE bs limit rssBytes ftsOk dbOk st0).changed = 0) := by
    unfold mainRun
    by_cases hpf : preflightFails corpus.length bs limit = true
    · rw [if_pos hpf]
      exact ⟨rfl, fun habs => by simp at habs⟩
    · rw [if_neg hpf]
      cases hrs : runScan corpus state bs limit rssBytes st0 with
      | mk s err =>
        cases err with
        | some e => exact ⟨rfl, fun habs => by simp at habs⟩
        | none =>
          simp only []
          by_cases hno : s.changed = 0 ∧ s.removed_keys = [] ∧ dbE = true
          · rw [if_pos hno]
            refine ⟨rfl, fun _ => ?_⟩
            obtain ⟨hdb, hlo, hfl, hba⟩ := runScan_changed_zero hrs hno.1
            exact ⟨hdb, hno.1⟩
          · rw [if_neg hno]
            rw [hciE]
            exact ⟨rfl, fun habs => by simp at habs⟩
  refine ⟨hkey.1, hkey.2, ?_⟩
  intro dbE' bs' limit' rss' ftsOk' dbOk'
  rw [hkey.1]

theorem C3_integrity_gate_witness :
    (mainRun [fileN] [] true 10 none (fun _ => 0) false true emptyStore).stateFile = []
      ∧ ((mainRun [fileN] [] true 10 none (fun _ => 0) false true emptyStore).result = .ok () →
          (mainRun [fileN] [] true 10 none (fun _ => 0) false true emptyStore).db
              = { store := emptyStore, trace := [] }
            ∧ (mainRun [fileN] [] true 10 none (fun _ => 0) false true emptyStore).changed = 0) := by
  have h := C3_integrity_gate [fileN] [] true 10 none (fun _ => 0) false true emptyStore
    (by simp)
  exact ⟨h.1, h.2.1⟩

theorem lastMtimeIn_none_of_not_mem {corpus : List FileEntry} {p : String}
    (h : ¬ p ∈ corpus.map FileEntry.path) : lastMtimeIn corpus p = none := by
  induction corpus with
  | nil => rfl
  | cons g gs ih =>
    have h1 : ¬ p ∈ gs.map FileEntry.path := fun hm => h (by simp [hm])
    have h2 : ¬ g.path = p := fun he => h (by simp [he])
    simp only [lastMtimeIn, ih h1, h2, if_false]

theorem lastMtimeIn_nodup {corpus : List FileEntry} {f : FileEntry}
    (hnd : (corpus.map FileEntry.path).Nodup) (hf : f ∈ corpus) :
    lastMtimeIn corpus f.path = some f.mtime_ns := by
  induction corpus with
  | nil => simp at hf
  | cons g gs ih =>
    have hnd' : (gs.map FileEntry.path).Nodup := (List.nodup_cons.mp hnd).2
    rcases List.mem_cons.mp hf with he | hm
    · subst he
      have hnm : ¬ f.path ∈ gs.map FileEntry.path := (List.nodup_cons.mp hnd).1
      simp [lastMtimeIn, lastMtimeIn_none_of_not_mem hnm]
    · simp only [lastMtimeIn, ih hnd' hm]

theorem lastMtimeIn_some_mem {corpus : List FileEntry} {p : String} {m : Nat}
    (h : lastMtimeIn corpus p = some m) : p ∈ corpus.map FileEntry.path := by
  induction corpus generalizing m with
  | nil => simp [lastMtimeIn] at h
  | cons g gs ih =>
    simp only [lastMtimeIn] at h
    cases hl : lastMtimeIn gs p with
    | some m' =>
      rw [hl] at h
      exact List.mem_cons_of_mem _ (ih hl)
    | none =>
      rw [hl] at h
      by_cases hp : g.path = p
      · simp [hp]
      · rw [if_neg hp] at h
        simp at h

theorem lookupState_mem {st : List (String × Nat)} {kv : String × Nat} (h : kv ∈ st) :
    ¬ lookupState st kv.1 = none := by
  induction st with
  | nil => simp at h
  | cons x xs ih =>
    by_cases hx : x.1 = kv.1
    · simp [lookupState, hx]
    · rcases List.mem_cons.mp h with he | hm
      · subst he; exact absurd rfl hx
      · simp only [lookupState, hx, if_false]
        exact ih hm

theorem runScan_ok_master {corpus : List FileEntry} {state : List (String × Nat)}
    {bs : Nat} {limit : Option ℚ} {rssBytes : Nat → ℚ} {st0 : Store} {s : ScanState}
    (h : runScan corpus state bs limit rssBytes st0 = (s, none)) :
    s.changed = (corpus.filter (changedB state)).length
      ∧ (∀ p, lookupState s.new_state p =
          match lastMtimeIn corpus p with
          | some m => some m
          | none => none)
      ∧ s.removed_keys =
          (state.map Prod.fst).filter (fun k => corpus.all (fun g => ¬ k = g.path)) := by
  unfold runScan at h
  cases hscan : scanCorpus state limit rssBytes (initScan state bs st0) corpus with
  | mk s1 err =>
    rw [hscan] at h
    cases err with
    | some e => simp at h
    | none =>
      simp only [] at h
      obtain ⟨hl, hc, hn, hr, hg⟩ := scanCorpus_ok_master corpus _ s1 hscan
      have hfields : s.changed = s1.changed ∧ s.new_state = s1.new_state
          ∧ s.removed_keys = s1.removed_keys := by
        rcases finalFlush_ok_elim h with ⟨hb, hs⟩ | ⟨db', hpb, hs⟩
        · rw [hs]; exact ⟨rfl, rfl, rfl⟩
        · rw [hs]; exact ⟨rfl, rfl, rfl⟩
      refine ⟨?_, ?_, ?_⟩
      · rw [hfields.1, hc]
        simp [initScan]
      · intro p
        rw [hfields.2.1]
        have := hn p
        cases hl2 : lastMtimeIn corpus p with
        | some m => rw [hl2] at this; simpa using this
        | none =>
          rw [hl2] at this
          simpa [initScan, lookupState] using this
      · rw [hfields.2.2, hr]
        simp [initScan]

theorem mainRun_ok_elim {corpus : List FileEntry} {state : List (String × Nat)} {dbE : Bool}
    {bs : Nat} {limit : Option ℚ} {rssBytes : Nat → ℚ} {ftsOk dbOk : Bool} {st0 : Store}
    (h : (mainRun corpus state dbE bs limit rssBytes ftsOk dbOk st0).result = .ok ()) :
    preflightFails corpus.length bs limit = false
    ∧ ∃ s, runScan corpus state bs limit rssBytes st0 = (s, none)
      ∧ ((s.changed = 0 ∧ s.removed_keys = []
            ∧ (mainRun corpus state dbE bs limit rssBytes ftsOk dbOk st0).stateFile = state
            ∧ (mainRun corpus state dbE bs limit rssBytes ftsOk dbOk st0).db = s.db)
        ∨ ((mainRun corpus state dbE bs limit rssBytes ftsOk dbOk st0).stateFile
              = s.new_state
            ∧ (mainRun corpus state dbE bs limit rssBytes ftsOk dbOk st0).db.store
              = (s.removed_keys.foldl
                  (fun db key => delete_issue db (pathStem key)) s.db).store)) := by
  by_cases hpf : preflightFails corpus.length bs limit = true
  · exfalso
    unfold mainRun at h
    rw [if_pos hpf] at h
    simp at h
  · refine ⟨by simpa using hpf, ?_⟩
    unfold mainRun at h
    rw [if_neg hpf] at h
    cases hrs : runScan corpus state bs limit rssBytes st0 with
    | mk s err =>
      rw [hrs] at h
      cases err with
      | some e => simp at h
      | none =>
        simp only [] at h
        refine ⟨s, rfl, ?_⟩
        by_cases hno : s.changed = 0 ∧ s.removed_keys = [] ∧ dbE = true
        · have hm : mainRun corpus state dbE bs limit rssBytes ftsOk dbOk st0
              = { result := .ok (), db := s.db, stateFile := state, loads := s.loads,
                  flushed := s.flushed, changed := s.changed, removed := s.removed_keys } := by
            unfold mainRun
            rw [if_neg hpf, hrs]
            simp only []
            rw [if_pos hno]
          exact Or.inl ⟨hno.1, hno.2.1, by rw [hm], by rw [hm]⟩
        · rw [if_neg hno] at h
          cases hci : check_integrity ftsOk dbOk with
          | error e' =>
            rw [hci] at h
            simp at h
          | ok u =>
            have hm : mainRun corpus state dbE bs limit rssBytes ftsOk dbOk st0
                = { result := .ok ()
                    db :=
                      { store := (s.removed_keys.foldl
                            (fun db key => delete_issue db (pathStem key)) s.db).store
                        trace := (s.removed_keys.foldl
                            (fun db key => delete_issue db (pathStem key)) s.db).trace
                          ++ [.mergeCmd, .optimizeCmd] }
                    stateFile := s.new_state
                    loads := s.loads
                    flushed := s.flushed
                    changed := s.changed
                    removed := s.removed_keys } := by
              unfold mainRun
              rw [if_neg hpf, hrs]
              simp only []
              rw [if_neg hno, hci]
            exact Or.inr ⟨by rw [hm], by rw [hm]⟩

theorem mainRun_noop {corpus : List FileEntry} {state2 : List (String × Nat)} {bs : Nat}
    {limit : Option ℚ} {rss2 : Nat → ℚ} {fts2 db2 : Bool} {st2 : Store} {s2 : ScanState}
    (hpf : preflightFails corpus.length bs limit = false)
    (hrs2 : runScan corpus state2 bs limit rss2 st2 = (s2, none))
    (hno : s2.changed = 0 ∧ s2.removed_keys = [] ∧ (true : Bool) = true) :
    mainRun corpus state2 true bs limit rss2 fts2 db2 st2
      = { result := .ok (), db := s2.db, stateFile := state2, loads := s2.loads,
          flushed := s2.flushed, changed := s2.changed, removed := s2.removed_keys } := by
  unfold mainRun
  rw [if_neg (by simp [hpf]), hrs2]
  simp only []
  rw [if_pos ⟨hno.1, hno.2.1, trivial⟩]

/-- C6: after a successful run, running the indexer again over the same corpus
(no mtime changes, no removed paths, store present) takes the no-op short
circuit: it succeeds, performs zero data writes (empty trace), loads no file,
and leaves the store content and the state file exactly as the first run left
them. -/
theorem C6_idempotent_rerun (corpus : List FileEntry) (state : List (String × Nat))
    (dbE : Bool) (bs : Nat) (limit : Option ℚ) (rssBytes rssBytes2 : Nat → ℚ)
    (ftsOk dbOk ftsOk2 dbOk2 : Bool) (st0 : Store)
    (hnd : (corpus.map FileEntry.path).Nodup)
    (h1 : (mainRun corpus state dbE bs limit rssBytes ftsOk dbOk st0).result = .ok ()) :
    (mainRun corpus (mainRun corpus state dbE bs limit rssBytes ftsOk dbOk st0).stateFile
        true bs limit rssBytes2 ftsOk2 dbOk2
        (mainRun corpus state dbE bs limit rssBytes ftsOk dbOk st0).db.store).result = .ok ()
    ∧ (mainRun corpus (mainRun corpus state dbE bs limit rssBytes ftsOk dbOk st0).stateFile
        true bs limit rssBytes2 ftsOk2 dbOk2
        (mainRun corpus state dbE bs limit rssBytes ftsOk dbOk st0).db.store).db.store
      = (mainRun corpus state dbE bs limit rssBytes ftsOk dbOk st0).db.store
    ∧ (mainRun corpus (mainRun corpus state dbE bs limit rssBytes ftsOk dbOk st0).stateFile
        true bs limit rssBytes2 ftsOk2 dbOk2
        (mainRun corpus state dbE bs limit rssBytes ftsOk dbOk st0).db.store).db.trace = []
    ∧ (mainRun corpus (mainRun corpus state dbE bs limit rssBytes ftsOk dbOk st0).stateFile
        true bs limit rssBytes2 ftsOk2 dbOk2
        (mainRun corpus state dbE bs limit rssBytes ftsOk dbOk st0).db.store).stateFile
      = (mainRun corpus state dbE bs limit rssBytes ftsOk dbOk st0).stateFile
    ∧ (mainRun corpus (mainRun corpus state dbE bs limit rssBytes ftsOk dbOk st0).stateFile
        true bs limit rssBytes2 ftsOk2 dbOk2
        (mainRun corpus state dbE bs limit rssBytes ftsOk dbOk st0).db.store).loads = []
    ∧ (mainRun corpus (mainRun corpus state dbE bs limit rssBytes ftsOk dbOk st0).stateFile
        true bs limit rssBytes2 ftsOk2 dbOk2
        (mainRun corpus state dbE bs limit rssBytes ftsOk dbOk st0).db.store).flushed = [] := by
  obtain ⟨hpf, s, hrs, hcase⟩ := mainRun_ok_elim h1
  obtain ⟨hch1, hn1, hr1m⟩ := runScan_ok_master hrs
  have hallu2 : ∀ f ∈ corpus,
      lookupState (mainRun corpus state dbE bs limit rssBytes ftsOk dbOk st0).stateFile f.path
        = some f.mtime_ns := by
    rcases hcase with ⟨hc0, hrem0, hsf, hdb⟩ | ⟨hsf, hdbs⟩
    · rw [hsf]
      intro f hf
      have hlen : (corpus.filter (changedB state)).length = 0 := by rw [← hch1, hc0]
      have hnil := List.length_eq_zero.mp hlen
      have := List.filter_eq_nil_iff.mp hnil f hf
      simpa [changedB] using this
    · rw [hsf]
      intro f hf
      rw [hn1 f.path, lastMtimeIn_nodup hnd hf]
  have hkeys : ∀ kv ∈ (mainRun corpus state dbE bs limit rssBytes ftsOk dbOk st0).stateFile,
      kv.1 ∈ corpus.map FileEntry.path := by
    rcases hcase with ⟨hc0, hrem0, hsf, hdb⟩ | ⟨hsf, hdbs⟩
    · rw [hsf]
      intro kv hkv
      have hfe : (state.map Prod.fst).filter
          (fun k => corpus.all (fun g => ¬ k = g.path)) = [] := by
        rw [← hr1m, hrem0]
      have h2 := List.filter_eq_nil_iff.mp hfe kv.1 (List.mem_map.mpr ⟨kv, hkv, rfl⟩)
      simp only [List.all_eq_true, decide_eq_true_eq, not_forall] at h2
      obtain ⟨g, hg, he⟩ := h2
      exact List.mem_map.mpr ⟨g, hg, (not_not.mp he).symm⟩
    · rw [hsf]
      intro kv hkv
      have hne := lookupState_mem hkv
      rw [hn1 kv.1] at hne
      cases hl : lastMtimeIn corpus kv.1 with
      | some m => exact lastMtimeIn_some_mem hl
      | none =>
        rw [hl] at hne
        simp at hne
  have hu := @scanCorpus_unchanged
    (mainRun corpus state dbE bs limit rssBytes ftsOk dbOk st0).stateFile
    limit rssBytes2 corpus
    (initScan (mainRun corpus state dbE bs limit rssBytes ftsOk dbOk st0).stateFile bs
      (mainRun corpus state dbE bs limit rssBytes ftsOk dbOk st0).db.store) hallu2
  cases hscan2 : scanCorpus
      (mainRun corpus state dbE bs limit rssBytes ftsOk dbOk st0).stateFile limit rssBytes2
      (initScan (mainRun corpus state dbE bs limit rssBytes ftsOk dbOk st0).stateFile bs
        (mainRun corpus state dbE bs limit rssBytes ftsOk dbOk st0).db.store) corpus with
  | mk s2 err2 =>
    rw [hscan2] at hu
    cases err2 with
    | some e => exact absurd hu.1 (by simp)
    | none =>
      have hbatch2 : s2.batch = [] := by
        have := hu.2.2.2.2.1
        simpa [initScan] using this
      have hrs2 : runScan corpus
          (mainRun corpus state dbE bs limit rssBytes ftsOk dbOk st0).stateFile bs limit
          rssBytes2 (mainRun corpus state dbE bs limit rssBytes ftsOk dbOk st0).db.store
          = (s2, none) := by
        unfold runScan
        rw [hscan2]
        simp only []
        unfold finalFlush
        rw [if_pos hbatch2]
      obtain ⟨hch2m, hn2, hrem2⟩ := runScan_ok_master hrs2
      have hch2z : s2.changed = 0 := by
        have := hu.2.2.2.1
        simpa [initScan] using this
      have hrem2z : s2.removed_keys = [] := by
        rw [hrem2]
        apply List.filter_eq_nil_iff.mpr
        intro k hk
        obtain ⟨kv, hkv, he⟩ := List.mem_map.mp hk
        subst he
        have hmem := hkeys kv hkv
        obtain ⟨g, hg, hge⟩ := List.mem_map.mp hmem
        simp only [List.all_eq_true, decide_eq_true_eq, not_forall]
        exact ⟨g, hg, by simp [hge]⟩
      have hno2 : s2.changed = 0 ∧ s2.removed_keys = [] ∧ (true : Bool) = true :=
        ⟨hch2z, hrem2z, rfl⟩
      have hm2 := @mainRun_noop _ _ _ _ _ ftsOk2 dbOk2 _ _ hpf hrs2 hno2
      rw [hm2]
      have hdb2 : s2.db
          = { store := (mainRun corpus state dbE bs limit rssBytes ftsOk dbOk st0).db.store,
              trace := [] } := by
        have := hu.2.1
        simpa [initScan] using this
      refine ⟨rfl, ?_, ?_, rfl, ?_, ?_⟩
      · rw [hdb2]
      · rw [hdb2]
      · have := hu.2.2.1
        simpa [initScan] using this
      · have := hu.2.2.2.2.2
        simpa [initScan] using this

theorem C6_idempotent_rerun_witness :
    (mainRun [fileN]
        (mainRun [fileN] [] true 10 none (fun _ => 0) true true emptyStore).stateFile
        true 10 none (fun _ => 1) true true
        (mainRun [fileN] [] true 10 none (fun _ => 0) true true emptyStore).db.store).result
      = .ok ()
    ∧ (mainRun [fileN]
        (mainRun [fileN] [] true 10 none (fun _ => 0) true true emptyStore).stateFile
        true 10 none (fun _ => 1) true true
        (mainRun [fileN] [] true 10 none (fun _ => 0) true true emptyStore).db.store).db.store
      = (mainRun [fileN] [] true 10 none (fun _ => 0) true true emptyStore).db.store
    ∧ (mainRun [fileN]
        (mainRun [fileN] [] true 10 none (fun _ => 0) true true emptyStore).stateFile
        true 10 none (fun _ => 1) true true
        (mainRun [fileN] [] true 10 none (fun _ => 0) true true emptyStore).db.store).db.trace
      = [] := by
  have h := C6_idempotent_rerun [fileN] [] true 10 none (fun _ => 0) (fun _ => 1)
    true true true true emptyStore (by decide) rfl
  exact ⟨h.1, h.2.1, h.2.2.1⟩

/-- Structural well-formedness of the store: issue identities and rowids are
unique, rowids are below the next fresh rowid, and the FTS table has at most
one Index Row per rowid. -/
def Store.WF (st : Store) : Prop :=
  st.issues.Pairwise (fun a b => ¬ a.issue_id = b.issue_id)
    ∧ st.issues.Pairwise (fun a b => ¬ a.rowid = b.rowid)
    ∧ (∀ r ∈ st.issues, r.rowid < st.nextRowid)
    ∧ st.fts.Pairwise (fun a b => ¬ a.rowid = b.rowid)

/-- The Index Row invariant: an Index Row exists exactly for each Document
row, and its content is the deterministic derivation from the current
Document and Signal rows. -/
def Store.Inv (st : Store) : Prop :=
  (∀ r ∈ st.issues, findFts st.fts r.rowid = some (ftsRowFor st r))
    ∧ (∀ fr ∈ st.fts, ∃ r ∈ st.issues, r.rowid = fr.rowid)

/-- Child rows always belong to an existing Document row. -/
def Store.ChildInv (st : Store) : Prop :=
  (∀ s ∈ st.signals, ∃ r ∈ st.issues, r.issue_id = s.issue_id)
    ∧ (∀ w ∈ st.references_web, ∃ r ∈ st.issues, r.issue_id = w.issue_id)

theorem issues_id_unique {l : List IssueRow}
    (h : l.Pairwise (fun a b => ¬ a.issue_id = b.issue_id))
    {r1 r2 : IssueRow} (h1 : r1 ∈ l) (h2 : r2 ∈ l)
    (he : r1.issue_id = r2.issue_id) : r1 = r2 := by
  by_contra hne
  have hsym : Symmetric (fun (a b : IssueRow) => ¬ a.issue_id = b.issue_id) :=
    fun a b hab he2 => hab he2.symm
  exact (List.Pairwise.forall hsym h) h1 h2 hne he

theorem issues_rowid_unique {l : List IssueRow}
    (h : l.Pairwise (fun a b => ¬ a.rowid = b.rowid))
    {r1 r2 : IssueRow} (h1 : r1 ∈ l) (h2 : r2 ∈ l)
    (he : r1.rowid = r2.rowid) : r1 = r2 := by
  by_contra hne
  have hsym : Symmetric (fun (a b : IssueRow) => ¬ a.rowid = b.rowid) :=
    fun a b hab he2 => hab he2.symm
  exact (List.Pairwise.forall hsym h) h1 h2 hne he

theorem findIssue_unique {l : List IssueRow}
    (h : l.Pairwise (fun a b => ¬ a.issue_id = b.issue_id))
    {r : IssueRow} {id : String} (h1 : r ∈ l) (h2 : r.issue_id = id) :
    findIssue l id = some r := by
  obtain ⟨r', hr'⟩ := findIssue_mem h1 h2
  obtain ⟨hm', hid'⟩ := findIssue_some hr'
  rw [hr']
  congr 1
  exact issues_id_unique h hm' h1 (by rw [hid', h2])

theorem findFts_filter_ne {l : List FtsRow} {rid x : Nat} (h : ¬ rid = x) :
    findFts (l.filter (fun f => ¬ f.rowid = x)) rid = findFts l rid := by
  induction l with
  | nil => rfl
  | cons f fs ih =>
    by_cases h1 : f.rowid = x
    · have h2 : ¬ f.rowid = rid := by rw [h1]; exact fun he => h he.symm
      rw [List.filter_cons_of_neg (by simp [h1])]
      rw [ih]
      simp only [findFts, h2, if_false]
    · rw [List.filter_cons_of_pos (by simp [h1])]
      simp only [findFts]
      by_cases h2 : f.rowid = rid
      · simp only [h2, if_true]
      · simp only [h2, if_false]
        exact ih

theorem findFts_insert_self {l : List FtsRow} {row : FtsRow} :
    findFts (ftsTableInsert l row) row.rowid = some row := by
  simp [ftsTableInsert, findFts]

theorem findFts_insert_other {l : List FtsRow} {row : FtsRow} {rid : Nat}
    (h : ¬ rid = row.rowid) :
    findFts (ftsTableInsert l row) rid = findFts l rid := by
  unfold ftsTableInsert
  simp only [findFts]
  rw [if_neg (fun he => h he.symm)]
  exact findFts_filter_ne h

theorem ftsTableInsert_pairwise {l : List FtsRow} {row : FtsRow}
    (h : l.Pairwise (fun a b => ¬ a.rowid = b.rowid)) :
    (ftsTableInsert l row).Pairwise (fun a b => ¬ a.rowid = b.rowid) := by
  unfold ftsTableInsert
  refine List.pairwise_cons.mpr ⟨?_, h.sublist (List.filter_sublist _)⟩
  intro f hf
  have := List.mem_filter.mp hf
  intro he
  exact absurd (by simpa using this.2) (by simp [← he])

theorem findIssue_append_right {l1 l2 : List IssueRow} {id : String}
    (h : findIssue l1 id = none) : findIssue (l1 ++ l2) id = findIssue l2 id := by
  induction l1 with
  | nil => rfl
  | cons r rs ih =>
    by_cases hr : r.issue_id = id
    · simp [findIssue, hr] at h
    · simp only [findIssue, hr, if_false] at h
      rw [List.cons_append]
      simp only [findIssue, hr, if_false]
      exact ih h

theorem filter_append_signals {l sigs : List SignalRow} {id x : String}
    (hsigs : ∀ s ∈ sigs, s.issue_id = id) (hx : ¬ x = id) :
    ((l.filter (fun s : SignalRow => ¬ s.issue_id = id) ++ sigs).filter
        (fun s : SignalRow => s.issue_id = x))
      = l.filter (fun s : SignalRow => s.issue_id = x) := by
  rw [List.filter_append]
  have h2 : sigs.filter (fun s : SignalRow => s.issue_id = x) = [] := by
    apply List.filter_eq_nil_iff.mpr
    intro s hs
    have := hsigs s hs
    simp [this]
    intro he
    exact hx he.symm
  rw [h2, List.append_nil]
  induction l with
  | nil => rfl
  | cons s rest ih =>
    by_cases h1 : s.issue_id = id
    · have h3 : ¬ s.issue_id = x := by rw [h1]; intro he; exact hx he.symm
      rw [List.filter_cons_of_neg (by simp [h1])]
      rw [List.filter_cons_of_neg (by simp [h3])]
      exact ih
    · rw [List.filter_cons_of_pos (by simp [h1])]
      by_cases h3 : s.issue_id = x
      · rw [List.filter_cons_of_pos (by simp [h3]), List.filter_cons_of_pos (by simp [h3])]
        rw [ih]
      · rw [List.filter_cons_of_neg (by simp [h3]), List.filter_cons_of_neg (by simp [h3])]
        exact ih

theorem filter_append_signals_self {l sigs : List SignalRow} {id : String}
    (hsigs : ∀ s ∈ sigs, s.issue_id = id) :
    ((l.filter (fun s : SignalRow => ¬ s.issue_id = id) ++ sigs).filter
        (fun s : SignalRow => s.issue_id = id))
      = sigs := by
  rw [List.filter_append]
  have h1 : (l.filter (fun s : SignalRow => ¬ s.issue_id = id)).filter
      (fun s : SignalRow => s.issue_id = id) = [] := by
    apply List.filter_eq_nil_iff.mpr
    intro s hs
    have := List.mem_filter.mp hs
    simpa using this.2
  have h2 : sigs.filter (fun s : SignalRow => s.issue_id = id) = sigs := by
    apply List.filter_eq_self.mpr
    intro s hs
    simp [hsigs s hs]
  rw [h1, h2, List.nil_append]

theorem signalsConcat_eq_of_filter_eq {st1 st2 : Store} {id : String}
    (h : st1.signals.filter (fun s : SignalRow => s.issue_id = id)
        = st2.signals.filter (fun s : SignalRow => s.issue_id = id)) :
    signalsConcat st1 id = signalsConcat st2 id := by
  unfold signalsConcat
  rw [h]

theorem ftsRowFor_eq_of_signals {st1 st2 : Store} {r : IssueRow}
    (h : st1.signals.filter (fun s : SignalRow => s.issue_id = r.issue_id)
        = st2.signals.filter (fun s : SignalRow => s.issue_id = r.issue_id)) :
    ftsRowFor st1 r = ftsRowFor st2 r := by
  unfold ftsRowFor
  rw [signalsConcat_eq_of_filter_eq h]

theorem batchStep_preserves {db db' : DB} {doc : RawDoc}
    (hWF : db.store.WF) (hInv : db.store.Inv) (hCh : db.store.ChildInv)
    (h : batchStep db doc = .ok db') :
    db'.store.WF ∧ db'.store.Inv ∧ db'.store.ChildInv := by
  unfold batchStep at h
  cases hup : upsert_issue db doc with
  | error e => rw [hup] at h; simp at h
  | ok db1 =>
    rw [hup] at h
    cases hid0 : doc.issue_id with
    | none => rw [hid0] at h; simp at h
    | some id =>
      rw [hid0] at h
      simp only [] at h
      injection h with h
      obtain ⟨id2, src, title, sigs, refs, hid2, hsrc, htitle, hsig, href, hsg, hrf, hft,
        hcase⟩ := upsert_issue_ok_elim hup
      rw [hid0] at hid2
      injection hid2 with hid2
      subst hid2
      have hsigs_id := collectSignals_mem_id hsig
      have hrefs_id := collectRefs_mem_id href
      obtain ⟨rNew, hfindN, hNid, hPid, hProw, hBound, hOrig, hImage⟩ :
          ∃ rNew, findIssue db1.store.issues id = some rNew
            ∧ rNew.issue_id = id
            ∧ db1.store.issues.Pairwise (fun a b => ¬ a.issue_id = b.issue_id)
            ∧ db1.store.issues.Pairwise (fun a b => ¬ a.rowid = b.rowid)
            ∧ (∀ r ∈ db1.store.issues, r.rowid < db1.store.nextRowid)
            ∧ (∀ r ∈ db1.store.issues,
                (r.issue_id = id → r = rNew) ∧ (¬ r.issue_id = id → r ∈ db.store.issues))
            ∧ (∀ r0 ∈ db.store.issues, ∃ r ∈ db1.store.issues,
                r.rowid = r0.rowid ∧ r.issue_id = r0.issue_id
                ∧ (¬ r0.issue_id = id → r = r0)) := by
        rcases hcase with ⟨⟨r0, hr0⟩, hiss, hnr⟩ | ⟨hnone, hiss, hnr⟩
        · have hr0m := findIssue_some hr0
          refine ⟨updIssueRow doc title id r0, ?_, ?_, ?_, ?_, ?_, ?_, ?_⟩
          · rw [hiss]
            exact findIssue_map_upd doc title hr0
          · rw [updIssueRow_issue_id]
            exact hr0m.2
          · rw [hiss]
            exact List.Pairwise.map _
              (fun a b hab => by rw [updIssueRow_issue_id, updIssueRow_issue_id]; exact hab)
              hWF.1
          · rw [hiss]
            exact List.Pairwise.map _
              (fun a b hab => by rw [updIssueRow_rowid, updIssueRow_rowid]; exact hab)
              hWF.2.1
          · rw [hiss, hnr]
            intro r hr
            obtain ⟨r1, hr1, he⟩ := List.mem_map.mp hr
            rw [← he, updIssueRow_rowid]
            exact hWF.2.2.1 r1 hr1
          · rw [hiss]
            intro r hr
            obtain ⟨r1, hr1, he⟩ := List.mem_map.mp hr
            constructor
            · intro hid3
              have hr1id : r1.issue_id = id := by
                rw [← updIssueRow_issue_id doc title id r1, he, hid3]
              have : r1 = r0 := issues_id_unique hWF.1 hr1 hr0m.1 (by rw [hr1id, hr0m.2])
              rw [← he, this]
            · intro hid3
              have hr1id : ¬ r1.issue_id = id := by
                rw [← updIssueRow_issue_id doc title id r1, he]
                exact hid3
              rw [← he]
              rw [updIssueRow, if_neg hr1id]
              exact hr1
          · rw [hiss]
            intro r0' hr0'
            refine ⟨updIssueRow doc title id r0', List.mem_map.mpr ⟨r0', hr0', rfl⟩,
              updIssueRow_rowid _ _ _ _, updIssueRow_issue_id _ _ _ _, ?_⟩
            intro hne
            rw [updIssueRow, if_neg hne]
        · have hnal := findIssue_none.mp hnone
          refine ⟨newIssueRow db.store doc id src title, ?_, rfl, ?_, ?_, ?_, ?_, ?_⟩
          · rw [hiss, findIssue_append_right hnone]
            simp [findIssue, newIssueRow]
          · rw [hiss]
            refine List.pairwise_append.mpr ⟨hWF.1, by simp, ?_⟩
            intro a ha b hb
            simp only [List.mem_singleton] at hb
            subst hb
            show ¬ a.issue_id = id
            exact hnal a ha
          · rw [hiss]
            refine List.pairwise_append.mpr ⟨hWF.2.1, by simp, ?_⟩
            intro a ha b hb
            simp only [List.mem_singleton] at hb
            subst hb
            show ¬ a.rowid = db.store.nextRowid
            exact Nat.ne_of_lt (hWF.2.2.1 a ha)
          · rw [hiss, hnr]
            intro r hr
            rcases List.mem_append.mp hr with hr | hr
            · exact Nat.lt_succ_of_lt (hWF.2.2.1 r hr)
            · simp only [List.mem_singleton] at hr
              subst hr
              exact Nat.lt_succ_self _
          · rw [hiss]
            intro r hr
            rcases List.mem_append.mp hr with hr | hr
            · exact ⟨fun hid3 => absurd hid3 (hnal r hr), fun _ => hr⟩
            · simp only [List.mem_singleton] at hr
              subst hr
              exact ⟨fun _ => rfl, fun hid3 => absurd rfl hid3⟩
          · rw [hiss]
            intro r0' hr0'
            exact ⟨r0', List.mem_append.mpr (Or.inl hr0'), rfl, rfl, fun _ => rfl⟩
      have hNmem : rNew ∈ db1.store.issues := (findIssue_some hfindN).1
      have hupd : (update_fts db1 id).store
          = { nextRowid := db1.store.nextRowid, issues := db1.store.issues,
              signals := db1.store.signals, references_web := db1.store.references_web,
              fts := ftsTableInsert db1.store.fts (ftsRowFor db1.store rNew) } := by
        unfold update_fts
        rw [hfindN]
      rw [← h, hupd]
      refine ⟨⟨hPid, hProw, hBound, ?_⟩, ⟨?_, ?_⟩, ⟨?_, ?_⟩⟩
      · exact ftsTableInsert_pairwise (by rw [hft]; exact hWF.2.2.2)
      · -- every issue row has its derived Index Row
        intro r hr
        simp only [] at hr ⊢
        by_cases hrow : r.rowid = (ftsRowFor db1.store rNew).rowid
        · have hrow2 : r.rowid = rNew.rowid := hrow
          have hreq : r = rNew := issues_rowid_unique hProw hr hNmem hrow2
          subst hreq
          rw [show (ftsRowFor db1.store r).rowid = r.rowid from rfl] at hrow
          have : findFts (ftsTableInsert db1.store.fts (ftsRowFor db1.store r))
              (ftsRowFor db1.store r).rowid = some (ftsRowFor db1.store r) :=
            findFts_insert_self
          simpa using this
        · rw [findFts_insert_other hrow]
          have hrid : ¬ r.issue_id = id := by
            intro hid3
            have hre : r = rNew := (hOrig r hr).1 hid3
            rw [hre] at hrow
            exact hrow rfl
          have hrold : r ∈ db.store.issues := (hOrig r hr).2 hrid
          rw [hft, hInv.1 r hrold]
          congr 1
          apply ftsRowFor_eq_of_signals
          rw [hsg]
          exact (filter_append_signals hsigs_id hrid).symm
      · -- every Index Row belongs to an issue row
        intro fr hfr
        change fr ∈ ftsTableInsert db1.store.fts (ftsRowFor db1.store rNew) at hfr
        unfold ftsTableInsert at hfr
        rcases List.mem_cons.mp hfr with he | hfr
        · subst he
          exact ⟨rNew, hNmem, rfl⟩
        · have hfr2 : fr ∈ db1.store.fts := (List.mem_filter.mp hfr).1
          rw [hft] at hfr2
          obtain ⟨r0, hr0, hre⟩ := hInv.2 fr hfr2
          obtain ⟨r, hrm, hrw, hri, hrr⟩ := hImage r0 hr0
          exact ⟨r, hrm, by rw [hrw, hre]⟩
      · -- signals belong to issue rows
        intro s hs
        change s ∈ db1.store.signals at hs
        rw [hsg] at hs
        rcases List.mem_append.mp hs with hs | hs
        · have hs2 := List.mem_filter.mp hs
          obtain ⟨r0, hr0, hre⟩ := hCh.1 s hs2.1
          obtain ⟨r, hrm, hrw, hri, hrr⟩ := hImage r0 hr0
          exact ⟨r, hrm, by rw [hri, hre]⟩
        · exact ⟨rNew, hNmem, by rw [hNid, hsigs_id s hs]⟩
      · -- references belong to issue rows
        intro w hw
        change w ∈ db1.store.references_web at hw
        rw [hrf] at hw
        rcases List.mem_append.mp hw with hw | hw
        · have hw2 := List.mem_filter.mp hw
          obtain ⟨r0, hr0, hre⟩ := hCh.2 w hw2.1
          obtain ⟨r, hrm, hrw, hri, hrr⟩ := hImage r0 hr0
          exact ⟨r, hrm, by rw [hri, hre]⟩
        · exact ⟨rNew, hNmem, by rw [hNid, hrefs_id w hw]⟩

theorem filter_filter_ne_signals {l : List SignalRow} {id x : String} (hx : ¬ x = id) :
    ((l.filter (fun s : SignalRow => ¬ s.issue_id = id)).filter
        (fun s : SignalRow => s.issue_id = x))
      = l.filter (fun s : SignalRow => s.issue_id = x) := by
  have := @filter_append_signals l [] id x (by simp) hx
  simpa using this

theorem delete_issue_preserves {db : DB} {id : String}
    (hWF : db.store.WF) (hInv : db.store.Inv) (hCh : db.store.ChildInv) :
    (delete_issue db id).store.WF ∧ (delete_issue db id).store.Inv
      ∧ (delete_issue db id).store.ChildInv := by
  unfold delete_issue
  cases hfind : findIssue db.store.issues id with
  | none => exact ⟨hWF, hInv, hCh⟩
  | some r0 =>
    have hr0 := findIssue_some hfind
    refine ⟨⟨?_, ?_, ?_, ?_⟩, ⟨?_, ?_⟩, ⟨?_, ?_⟩⟩
    · exact hWF.1.sublist (List.filter_sublist _)
    · exact hWF.2.1.sublist (List.filter_sublist _)
    · intro r hr
      change r ∈ db.store.issues.filter (fun i : IssueRow => ¬ i.issue_id = id) at hr
      exact hWF.2.2.1 r (List.mem_filter.mp hr).1
    · exact hWF.2.2.2.sublist (List.filter_sublist _)
    · intro r hr
      change r ∈ db.store.issues.filter (fun i : IssueRow => ¬ i.issue_id = id) at hr
      have hr2 := List.mem_filter.mp hr
      have hrid : ¬ r.issue_id = id := by simpa using hr2.2
      have hrow : ¬ r.rowid = r0.rowid := by
        intro he
        have : r = r0 := issues_rowid_unique hWF.2.1 hr2.1 hr0.1 he
        rw [this] at hrid
        exact hrid hr0.2
      change findFts (db.store.fts.filter (fun f : FtsRow => ¬ f.rowid = r0.rowid)) r.rowid
        = _
      rw [findFts_filter_ne hrow, hInv.1 r hr2.1]
      congr 1
      apply ftsRowFor_eq_of_signals
      change db.store.signals.filter _
          = ((db.store.signals.filter (fun s : SignalRow => ¬ s.issue_id = id)).filter
              (fun s : SignalRow => s.issue_id = r.issue_id))
      rw [filter_filter_ne_signals hrid]
    · intro fr hfr
      change fr ∈ db.store.fts.filter (fun f : FtsRow => ¬ f.rowid = r0.rowid) at hfr
      have hfr2 := List.mem_filter.mp hfr
      obtain ⟨r, hrm, hre⟩ := hInv.2 fr hfr2.1
      have hrid : ¬ r.issue_id = id := by
        intro he
        have : r = r0 := issues_id_unique hWF.1 hrm hr0.1 (by rw [he, hr0.2])
        rw [this] at hre
        have := hfr2.2
        simp [← hre] at this
      exact ⟨r, List.mem_filter.mpr ⟨hrm, by simpa using hrid⟩, hre⟩
    · intro s hs
      change s ∈ db.store.signals.filter (fun x : SignalRow => ¬ x.issue_id = id) at hs
      have hs2 := List.mem_filter.mp hs
      obtain ⟨r, hrm, hre⟩ := hCh.1 s hs2.1
      have hrid : ¬ r.issue_id = id := by
        rw [hre]
        simpa using hs2.2
      exact ⟨r, List.mem_filter.mpr ⟨hrm, by simpa using hrid⟩, hre⟩
    · intro w hw
      change w ∈ db.store.references_web.filter (fun x : RefRow => ¬ x.issue_id = id) at hw
      have hw2 := List.mem_filter.mp hw
      obtain ⟨r, hrm, hre⟩ := hCh.2 w hw2.1
      have hrid : ¬ r.issue_id = id := by
        rw [hre]
        simpa using hw2.2
      exact ⟨r, List.mem_filter.mpr ⟨hrm, by simpa using hrid⟩, hre⟩

theorem applyBatch_preserves : ∀ {batch : List RawDoc} {db db' : DB},
    db.store.WF → db.store.Inv → db.store.ChildInv →
    applyBatch db batch = .ok db' →
    db'.store.WF ∧ db'.store.Inv ∧ db'.store.ChildInv := by
  intro batch
  induction batch with
  | nil =>
    intro db db' h1 h2 h3 h
    unfold applyBatch at h
    injection h with h
    subst h
    exact ⟨h1, h2, h3⟩
  | cons doc rest ih =>
    intro db db' h1 h2 h3 h
    unfold applyBatch at h
    cases hbs : batchStep db doc with
    | error e => rw [hbs] at h; simp at h
    | ok db1 =>
      rw [hbs] at h
      obtain ⟨g1, g2, g3⟩ := batchStep_preserves h1 h2 h3 hbs
      exact ih g1 g2 g3 h

theorem process_batch_preserves {batch : List RawDoc} {db db' : DB}
    (h1 : db.store.WF) (h2 : db.store.Inv) (h3 : db.store.ChildInv)
    (h : process_batch db batch = .ok db') :
    db'.store.WF ∧ db'.store.Inv ∧ db'.store.ChildInv :=
  applyBatch_preserves h1 h2 h3 h

/-- A committed operation against the store: a batch-processor upsert step
(whose transaction is rolled back when it fails) or a deletion. -/
inductive Op
  | upsertDoc (d : RawDoc)
  | deleteDoc (id : String)

/-- Apply one committed operation. -/
def applyOp (db : DB) : Op → DB
  | .upsertDoc d =>
    match batchStep db d with
    | .ok db' => db'
    | .error _ => db
  | .deleteDoc id => delete_issue db id

/-- Apply a sequence of committed operations. -/
def applyOps (db : DB) (ops : List Op) : DB :=
  ops.foldl applyOp db

theorem applyOp_preserves {db : DB} (op : Op)
    (h1 : db.store.WF) (h2 : db.store.Inv) (h3 : db.store.ChildInv) :
    (applyOp db op).store.WF ∧ (applyOp db op).store.Inv
      ∧ (applyOp db op).store.ChildInv := by
  cases op with
  | upsertDoc d =>
    unfold applyOp
    simp only []
    cases hbs : batchStep db d with
    | error e => exact ⟨h1, h2, h3⟩
    | ok db' => exact batchStep_preserves h1 h2 h3 hbs
  | deleteDoc id => exact delete_issue_preserves h1 h2 h3

theorem update_fts_issues (db : DB) (id : String) :
    (update_fts db id).store.issues = db.store.issues := by
  unfold update_fts
  cases hfind : findIssue db.store.issues id with
  | none => rfl
  | some r => rfl

/-- C2: over every sequence of committed upsert and delete operations the
store keeps the Index Row invariant — an Index Row exists iff its Document
row exists and its content is the deterministic derivation from the current
Document and Signal rows — and upserting an already-present identity leaves a
single Index Row at the same rowid whose content is derived from the
post-upsert store, never a stale entry. -/
theorem C2_fts_invariant :
    (∀ (db : DB) (ops : List Op), db.store.WF → db.store.Inv → db.store.ChildInv →
        (applyOps db ops).store.WF ∧ (applyOps db ops).store.Inv
          ∧ (applyOps db ops).store.ChildInv)
    ∧ (∀ (db : DB) (d : RawDoc) (id : String) (r : IssueRow),
        db.store.WF → db.store.Inv → db.store.ChildInv →
        d.issue_id = some id → findIssue db.store.issues id = some r → docOk d = true →
        ∃ r', findIssue (applyOp db (.upsertDoc d)).store.issues id = some r'
          ∧ r'.rowid = r.rowid
          ∧ findFts (applyOp db (.upsertDoc d)).store.fts r.rowid
              = some (ftsRowFor (applyOp db (.upsertDoc d)).store r')) := by
  constructor
  · intro db ops
    induction ops generalizing db with
    | nil => intro h1 h2 h3; exact ⟨h1, h2, h3⟩
    | cons op rest ih =>
      intro h1 h2 h3
      obtain ⟨g1, g2, g3⟩ := applyOp_preserves op h1 h2 h3
      exact ih _ g1 g2 g3
  · intro db d id r hWF hInv hCh hid hfind hok
    obtain ⟨dbu, hup⟩ := @upsert_ok_of_docOk db _ hok
    have hbs : batchStep db d = .ok (update_fts dbu id) := by
      unfold batchStep
      rw [hup, hid]
    have happ : applyOp db (.upsertDoc d) = update_fts dbu id := by
      unfold applyOp
      simp only []
      rw [hbs]
    obtain ⟨hWF', hInv', hCh'⟩ := batchStep_preserves hWF hInv hCh hbs
    obtain ⟨id2, src, title, sigs, refs, hid2, hsrc, htitle, hsig, href, hsg, hrf, hft,
      hcase⟩ := upsert_issue_ok_elim hup
    rw [hid] at hid2
    injection hid2 with hid2
    subst hid2
    rcases hcase with ⟨⟨r0, hr0⟩, hiss, hnr⟩ | ⟨hnone, hiss, hnr⟩
    · have hfindu : findIssue (update_fts dbu id).store.issues id
          = some (updIssueRow d title id r) := by
        rw [update_fts_issues, hiss]
        exact findIssue_map_upd d title hfind
      refine ⟨updIssueRow d title id r, by rw [happ]; exact hfindu,
        updIssueRow_rowid _ _ _ _, ?_⟩
      rw [happ]
      have hmem := (findIssue_some hfindu).1
      have hfts := hInv'.1 _ hmem
      rw [← updIssueRow_rowid d title id r]
      exact hfts
    · rw [hnone] at hfind
      exact absurd hfind (by simp)

theorem C2_fts_invariant_witness :
    (emptyDB.store.WF ∧ emptyDB.store.Inv ∧ emptyDB.store.ChildInv)
    ∧ ((applyOps emptyDB [Op.upsertDoc sampleDoc, Op.upsertDoc badDoc,
          Op.deleteDoc ("a1")]).store.WF
        ∧ (applyOps emptyDB [Op.upsertDoc sampleDoc, Op.upsertDoc badDoc,
            Op.deleteDoc ("a1")]).store.Inv
        ∧ (applyOps emptyDB [Op.upsertDoc sampleDoc, Op.upsertDoc badDoc,
            Op.deleteDoc ("a1")]).store.ChildInv)
    ∧ (∃ r', findIssue (applyOp sampleDB (.upsertDoc sampleDoc)).store.issues ("a1")
          = some r'
        ∧ r'.rowid = sampleRow.rowid
        ∧ findFts (applyOp sampleDB (.upsertDoc sampleDoc)).store.fts sampleRow.rowid
            = some (ftsRowFor (applyOp sampleDB (.upsertDoc sampleDoc)).store r')) := by
  have he : emptyDB.store.WF ∧ emptyDB.store.Inv ∧ emptyDB.store.ChildInv := by
    refine ⟨⟨?_, ?_, ?_, ?_⟩, ⟨?_, ?_⟩, ⟨?_, ?_⟩⟩ <;> simp [emptyDB, emptyStore]
  have hs : sampleDB.store.WF ∧ sampleDB.store.Inv ∧ sampleDB.store.ChildInv := by
    refine ⟨⟨?_, ?_, ?_, ?_⟩, ⟨?_, ?_⟩, ⟨?_, ?_⟩⟩ <;> decide
  refine ⟨he, ?_, ?_⟩
  · exact C2_fts_invariant.1 emptyDB [Op.upsertDoc sampleDoc, Op.upsertDoc badDoc,
      Op.deleteDoc ("a1")] he.1 he.2.1 he.2.2
  · exact C2_fts_invariant.2 sampleDB sampleDoc ("a1") sampleRow hs.1 hs.2.1 hs.2.2
      (by decide) (by decide) (by decide)

theorem delete_issue_trace {db : DB} {id : String} {r : IssueRow}
    (h : findIssue db.store.issues id = some r) :
    (delete_issue db id).trace = db.trace
      ++ [.ftsDeleteMarker r.rowid, .deleteSignals id, .deleteRefs id, .deleteIssueRow id] := by
  unfold delete_issue
  rw [h]

theorem delete_issue_absent (db : DB) (id : String) :
    ∀ r ∈ (delete_issue db id).store.issues, ¬ r.issue_id = id := by
  unfold delete_issue
  cases hfind : findIssue db.store.issues id with
  | none =>
    intro r hr
    exact findIssue_none.mp hfind r hr
  | some r0 =>
    intro r hr
    change r ∈ db.store.issues.filter (fun i : IssueRow => ¬ i.issue_id = id) at hr
    simpa using (List.mem_filter.mp hr).2

theorem delete_issue_mono {db : DB} {id : String} (idd : String)
    (h : ∀ r ∈ db.store.issues, ¬ r.issue_id = id) :
    ∀ r ∈ (delete_issue db idd).store.issues, ¬ r.issue_id = id := by
  unfold delete_issue
  cases hfind : findIssue db.store.issues idd with
  | none => exact h
  | some r0 =>
    intro r hr
    change r ∈ db.store.issues.filter (fun i : IssueRow => ¬ i.issue_id = idd) at hr
    exact h r (List.mem_filter.mp hr).1

theorem foldl_delete_mono : ∀ (keys : List String) (db : DB) {id : String},
    (∀ r ∈ db.store.issues, ¬ r.issue_id = id) →
    ∀ r ∈ (keys.foldl (fun db k => delete_issue db (pathStem k)) db).store.issues,
      ¬ r.issue_id = id := by
  intro keys
  induction keys with
  | nil => intro db id h; exact h
  | cons k ks ih =>
    intro db id h
    rw [List.foldl_cons]
    exact ih _ (delete_issue_mono (pathStem k) h)

theorem foldl_delete_absent : ∀ (keys : List String) (db : DB) (key : String), key ∈ keys →
    ∀ r ∈ (keys.foldl (fun db k => delete_issue db (pathStem k)) db).store.issues,
      ¬ r.issue_id = pathStem key := by
  intro keys
  induction keys with
  | nil => intro db key hk; simp at hk
  | cons k ks ih =>
    intro db key hk
    rcases List.mem_cons.mp hk with he | hm
    · subst he
      rw [List.foldl_cons]
      exact foldl_delete_mono ks _ (delete_issue_absent db (pathStem key))
    · rw [List.foldl_cons]
      exact ih _ key hm

theorem foldl_delete_preserves : ∀ (keys : List String) (db : DB),
    db.store.WF → db.store.Inv → db.store.ChildInv →
    (keys.foldl (fun db k => delete_issue db (pathStem k)) db).store.WF
      ∧ (keys.foldl (fun db k => delete_issue db (pathStem k)) db).store.Inv
      ∧ (keys.foldl (fun db k => delete_issue db (pathStem k)) db).store.ChildInv := by
  intro keys
  induction keys with
  | nil => intro db h1 h2 h3; exact ⟨h1, h2, h3⟩
  | cons k ks ih =>
    intro db h1 h2 h3
    rw [List.foldl_cons]
    obtain ⟨g1, g2, g3⟩ := delete_issue_preserves h1 h2 h3
    exact ih _ g1 g2 g3

theorem scanCorpus_preserves {state : List (String × Nat)} {limit : Option ℚ}
    {rssBytes : Nat → ℚ} : ∀ (corpus : List FileEntry) (s s' : ScanState),
    scanCorpus state limit rssBytes s corpus = (s', none) →
    s.db.store.WF → s.db.store.Inv → s.db.store.ChildInv →
    s'.db.store.WF ∧ s'.db.store.Inv ∧ s'.db.store.ChildInv := by
  intro corpus
  induction corpus with
  | nil =>
    intro s s' h h1 h2 h3
    unfold scanCorpus at h
    injection h with h _
    subst h
    exact ⟨h1, h2, h3⟩
  | cons f fs ih =>
    intro s s' h h1 h2 h3
    rw [scanCorpus_cons] at h
    cases hstep : scanStep state limit rssBytes s f with
    | mk s1 err =>
      rw [hstep] at h
      cases err with
      | some e => simp at h
      | none =>
        simp only [] at h
        obtain ⟨sMid, hsamp, htot, hns, hrem, hbs, hbranch⟩ := scanStep_ok_elim hstep
        have hdbMid : sMid.db.store.WF ∧ sMid.db.store.Inv ∧ sMid.db.store.ChildInv := by
          rcases hbranch with ⟨hchF, hlo, hch, hba, hfl, hdb⟩ |
            ⟨doc, hchT, hld, hlo, hch, hsub⟩
          · rw [hdb]; exact ⟨h1, h2, h3⟩
          · rcases hsub with ⟨hba, hdb, hfl⟩ | ⟨db', hpb, hba, hdb, hfl⟩
            · rw [hdb]; exact ⟨h1, h2, h3⟩
            · rw [hdb]
              exact process_batch_preserves h1 h2 h3 hpb
        subst hsamp
        have hsampdb := (sampleMem_fields limit rssBytes sMid).1
        have hdbMid' : (sampleMem limit rssBytes sMid).db.store.WF
            ∧ (sampleMem limit rssBytes sMid).db.store.Inv
            ∧ (sampleMem limit rssBytes sMid).db.store.ChildInv := by
          rw [hsampdb]
          exact hdbMid
        exact ih _ s' h hdbMid'.1 hdbMid'.2.1 hdbMid'.2.2

theorem runScan_preserves {corpus : List FileEntry} {state : List (String × Nat)}
    {bs : Nat} {limit : Option ℚ} {rssBytes : Nat → ℚ} {st0 : Store} {s : ScanState}
    (h : runScan corpus state bs limit rssBytes st0 = (s, none))
    (h1 : st0.WF) (h2 : st0.Inv) (h3 : st0.ChildInv) :
    s.db.store.WF ∧ s.db.store.Inv ∧ s.db.store.ChildInv := by
  unfold runScan at h
  cases hscan : scanCorpus state limit rssBytes (initScan state bs st0) corpus with
  | mk s1 err =>
    rw [hscan] at h
    cases err with
    | some e => simp at h
    | none =>
      simp only [] at h
      have hs1 := scanCorpus_preserves corpus _ s1 hscan
        (by simpa [initScan] using h1) (by simpa [initScan] using h2)
        (by simpa [initScan] using h3)
      rcases finalFlush_ok_elim h with ⟨hb, hs⟩ | ⟨db', hpb, hs⟩
      · rw [hs]; exact hs1
      · rw [hs]
        exact process_batch_preserves hs1.1 hs1.2.1 hs1.2.2 hpb

/-- C5: after a successful run, a path present in the prior Change State but
absent from the current listing has no Document, Signal or Reference rows for
its identity (the file stem) in the store, every remaining Index Row belongs
to a surviving Document row, and the path is absent from the persisted Change
State; moreover delete_issue performs its deletions in the order FTS deletion
marker, signal children, reference children, document row. -/
theorem C5_deletion (corpus : List FileEntry) (state : List (String × Nat)) (dbE : Bool)
    (bs : Nat) (limit : Option ℚ) (rssBytes : Nat → ℚ) (ftsOk dbOk : Bool) (st0 : Store)
    (key : String) (m : Nat)
    (hWF : st0.WF) (hInv : st0.Inv) (hCh : st0.ChildInv)
    (hkey : (key, m) ∈ state)
    (hgone : ¬ key ∈ corpus.map FileEntry.path)
    (hok : (mainRun corpus state dbE bs limit rssBytes ftsOk dbOk st0).result = .ok ()) :
    (∀ r ∈ (mainRun corpus state dbE bs limit rssBytes ftsOk dbOk st0).db.store.issues,
        ¬ r.issue_id = pathStem key)
    ∧ (∀ sg ∈ (mainRun corpus state dbE bs limit rssBytes ftsOk dbOk st0).db.store.signals,
        ¬ sg.issue_id = pathStem key)
    ∧ (∀ w ∈ (mainRun corpus state dbE bs limit rssBytes
          ftsOk dbOk st0).db.store.references_web,
        ¬ w.issue_id = pathStem key)
    ∧ (∀ fr ∈ (mainRun corpus state dbE bs limit rssBytes ftsOk dbOk st0).db.store.fts,
        ∃ r ∈ (mainRun corpus state dbE bs limit rssBytes ftsOk dbOk st0).db.store.issues,
          r.rowid = fr.rowid)
    ∧ ¬ key ∈ (mainRun corpus state dbE bs limit rssBytes ftsOk dbOk st0).stateFile.map
        Prod.fst
    ∧ (∀ (db : DB) (id : String) (r : IssueRow), findIssue db.store.issues id = some r →
        (delete_issue db id).trace = db.trace
          ++ [.ftsDeleteMarker r.rowid, .deleteSignals id, .deleteRefs id,
              .deleteIssueRow id]) := by
  obtain ⟨hpf, s, hrs, hcase⟩ := mainRun_ok_elim hok
  obtain ⟨hch1, hn1, hr1m⟩ := runScan_ok_master hrs
  have hkeymem : key ∈ s.removed_keys := by
    rw [hr1m]
    apply List.mem_filter.mpr
    refine ⟨List.mem_map.mpr ⟨(key, m), hkey, rfl⟩, ?_⟩
    simp only [List.all_eq_true, decide_eq_true_eq]
    intro g hg he
    exact hgone (List.mem_map.mpr ⟨g, hg, he.symm⟩)
  rcases hcase with ⟨hc0, hrem0, hsf, hdb⟩ | ⟨hsf, hdbs⟩
  · rw [hrem0] at hkeymem
    simp at hkeymem
  · obtain ⟨g1, g2, g3⟩ := runScan_preserves hrs hWF hInv hCh
    obtain ⟨d1, d2, d3⟩ := foldl_delete_preserves s.removed_keys s.db g1 g2 g3
    have habs : ∀ r ∈ (s.removed_keys.foldl
        (fun db k => delete_issue db (pathStem k)) s.db).store.issues,
        ¬ r.issue_id = pathStem key :=
      foldl_delete_absent s.removed_keys s.db key hkeymem
    rw [hdbs]
    refine ⟨habs, ?_, ?_, d2.2, ?_, fun db id r h => delete_issue_trace h⟩
    · intro sg hsg
      obtain ⟨r, hrm, hre⟩ := d3.1 sg hsg
      rw [← hre]
      exact habs r hrm
    · intro w hw
      obtain ⟨r, hrm, hre⟩ := d3.2 w hw
      rw [← hre]
      exact habs r hrm
    · rw [hsf]
      intro hmem
      obtain ⟨kv, hkv, he⟩ := List.mem_map.mp hmem
      have hne := lookupState_mem hkv
      rw [he] at hne
      rw [hn1 key] at hne
      rw [lastMtimeIn_none_of_not_mem hgone] at hne
      exact hne rfl

/-- The Change State used in the deletion witness: one entry whose source
file no longer exists and whose stem is the stored identity. -/
def stateDel : List (String × Nat) :=
  [("issues/s/l/a1.json", 3)]

theorem C5_deletion_witness :
    (∀ r ∈ (mainRun [] stateDel true 10 none (fun _ => 0) true true
          sampleDB.store).db.store.issues,
        ¬ r.issue_id = pathStem ("issues/s/l/a1.json"))
    ∧ (∀ sg ∈ (mainRun [] stateDel true 10 none (fun _ => 0) true true
          sampleDB.store).db.store.signals,
        ¬ sg.issue_id = pathStem ("issues/s/l/a1.json"))
    ∧ ¬ ("issues/s/l/a1.json") ∈ (mainRun [] stateDel true 10 none (fun _ => 0) true true
          sampleDB.store).stateFile.map Prod.fst := by
  have h := C5_deletion [] stateDel true 10 none (fun _ => 0) true true sampleDB.store
    ("issues/s/l/a1.json") 3 (by refine ⟨?_, ?_, ?_, ?_⟩ <;> decide)
    (by refine ⟨?_, ?_⟩ <;> decide) (by refine ⟨?_, ?_⟩ <;> decide) (by decide) (by decide)
    rfl
  exact ⟨h.1, h.2.1, h.2.2.2.2.1⟩

theorem mem_insertByRank {rank : FtsRow → ℚ} {x a : FtsRow} : ∀ {l : List FtsRow},
    a ∈ insertByRank rank x l ↔ a = x ∨ a ∈ l := by
  intro l
  induction l with
  | nil => simp [insertByRank]
  | cons y ys ih =>
    by_cases hc : rank x ≤ rank y
    · simp [insertByRank, hc]
    · simp only [insertByRank, hc, if_false, List.mem_cons, ih]
      tauto

theorem insertByRank_pairwise {rank : FtsRow → ℚ} {x : FtsRow} : ∀ {l : List FtsRow},
    l.Pairwise (fun a b => rank a ≤ rank b) →
    (insertByRank rank x l).Pairwise (fun a b => rank a ≤ rank b) := by
  intro l
  induction l with
  | nil => intro h; simp [insertByRank]
  | cons y ys ih =>
    intro h
    have hy := List.pairwise_cons.mp h
    by_cases hc : rank x ≤ rank y
    · simp only [insertByRank, hc, if_true]
      refine List.pairwise_cons.mpr ⟨?_, h⟩
      intro z hz
      rcases List.mem_cons.mp hz with he | hm
      · subst he; exact hc
      · exact hc.trans (hy.1 z hm)
    · simp only [insertByRank, hc, if_false]
      refine List.pairwise_cons.mpr ⟨?_, ih hy.2⟩
      intro z hz
      rcases mem_insertByRank.mp hz with he | hm
      · subst he; exact le_of_not_le hc
      · exact hy.1 z hm

theorem sortByRank_pairwise {rank : FtsRow → ℚ} : ∀ (l : List FtsRow),
    (sortByRank rank l).Pairwise (fun a b => rank a ≤ rank b) := by
  intro l
  induction l with
  | nil => simp [sortByRank]
  | cons x xs ih => exact insertByRank_pairwise ih

theorem pairwise_filterMap_fst {R : FtsRow → FtsRow → Prop}
    {g : FtsRow → Option (FtsRow × IssueRow)}
    (hg : ∀ y p, g y = some p → p.1 = y) : ∀ {l : List FtsRow},
    l.Pairwise R → (l.filterMap g).Pairwise (fun a b => R a.1 b.1) := by
  intro l
  induction l with
  | nil => intro h; simp
  | cons y ys ih =>
    intro h
    have hy := List.pairwise_cons.mp h
    rw [List.filterMap_cons]
    cases hgy : g y with
    | none => exact ih hy.2
    | some p =>
      refine List.pairwise_cons.mpr ⟨?_, ih hy.2⟩
      intro q hq
      obtain ⟨z, hz, hgz⟩ := List.mem_filterMap.mp hq
      rw [hg y p hgy, hg z q hgz]
      exact hy.1 z hz

theorem queryHits_sorted (st : Store) (matchesQ : String → FtsRow → Bool)
    (rank : FtsRow → ℚ) (q : String) :
    (queryHits st matchesQ rank q).Pairwise (fun a b => rank a.1 ≤ rank b.1) := by
  unfold queryHits
  refine pairwise_filterMap_fst (R := fun a b => rank a ≤ rank b) ?_ (sortByRank_pairwise _)
  intro y p hp
  cases hfind : findIssueByRowid st.issues y.rowid with
  | none => rw [hfind] at hp; exact absurd hp (by simp)
  | some i =>
    rw [hfind] at hp
    simp only [Option.map_some'] at hp
    injection hp with hp
    rw [← hp]

/-- C9: a positive limit is required (assert); the empty query returns an
empty list without touching the store; a non-empty query executes the match
expression obtained by suffixing a wildcard to each whitespace-delimited term
and joining with single spaces; the result has at most limit rows; and the
hits are ordered by ascending bm25 score, the rows being the projection of
the first limit hits. -/
theorem C9_query_shape :
    (∀ (st : Store) (m : String → FtsRow → Bool) (rank : FtsRow → ℚ) (limit : Nat),
        0 < limit →
        query_fts st m rank ("") limit
          = some { rows := [], touched := false, executedMatch := none })
    ∧ prepareQuery ("auth timeout") = ("auth* timeout*")
    ∧ (∀ q, prepareQuery q
        = String.intercalate (" ") ((pySplit q).map (fun t => t ++ ("*"))))
    ∧ (∀ (st : Store) (m : String → FtsRow → Bool) (rank : FtsRow → ℚ) (q : String)
        (limit : Nat) (res : QueryResult), query_fts st m rank q limit = some res →
        ¬ q = "" → res.executedMatch = some (prepareQuery q))
    ∧ (∀ (st : Store) (m : String → FtsRow → Bool) (rank : FtsRow → ℚ) (q : String)
        (limit : Nat) (res : QueryResult), query_fts st m rank q limit = some res →
        res.rows.length ≤ limit)
    ∧ (∀ (st : Store) (m : String → FtsRow → Bool) (rank : FtsRow → ℚ) (q : String),
        (queryHits st m rank q).Pairwise (fun a b => rank a.1 ≤ rank b.1))
    ∧ (∀ (st : Store) (m : String → FtsRow → Bool) (rank : FtsRow → ℚ) (q : String)
        (limit : Nat) (res : QueryResult), query_fts st m rank q limit = some res →
        ¬ q = "" →
        res.rows = ((queryHits st m rank (prepareQuery q)).take limit).map
          (fun p => { issue_id := p.2.issue_id, title := p.2.title,
                      summary := p.2.summary, fix_steps := p.2.fix_steps,
                      language := p.2.language })) := by
  refine ⟨?_, by decide, fun q => rfl, ?_, ?_, ?_, ?_⟩
  · intro st m rank limit hl
    unfold query_fts
    rw [if_neg (Nat.pos_iff_ne_zero.mp hl), if_pos rfl]
  · intro st m rank q limit res h hq
    unfold query_fts at h
    by_cases hl : limit = 0
    · rw [if_pos hl] at h
      simp at h
    · rw [if_neg hl, if_neg hq] at h
      injection h with h
      rw [← h]
  · intro st m rank q limit res h
    unfold query_fts at h
    by_cases hl : limit = 0
    · rw [if_pos hl] at h
      simp at h
    · rw [if_neg hl] at h
      by_cases hq : q = ""
      · rw [if_pos hq] at h
        injection h with h
        rw [← h]
        exact Nat.zero_le _
      · rw [if_neg hq] at h
        injection h with h
        rw [← h]
        simp only [List.length_map]
        exact (List.length_take_le _ _).trans (le_refl _)
  · intro st m rank q
    exact queryHits_sorted st m rank q
  · intro st m rank q limit res h hq
    unfold query_fts at h
    by_cases hl : limit = 0
    · rw [if_pos hl] at h
      simp at h
    · rw [if_neg hl, if_neg hq] at h
      injection h with h
      rw [← h]

theorem C9_query_shape_witness :
    query_fts sampleDB.store (fun _ _ => true) (fun f => (f.rowid : ℚ)) ("") 5
        = some { rows := [], touched := false, executedMatch := none }
    ∧ prepareQuery ("auth timeout") = ("auth* timeout*")
    ∧ (∀ res, query_fts sampleDB.store (fun _ _ => true) (fun f => (f.rowid : ℚ))
          ("auth timeout") 1 = some res →
        res.executedMatch = some (prepareQuery ("auth timeout"))
          ∧ res.rows.length ≤ 1) := by
  refine ⟨C9_query_shape.1 sampleDB.store (fun _ _ => true) (fun f => (f.rowid : ℚ)) 5
    (by decide), C9_query_shape.2.1, ?_⟩
  intro res h
  exact ⟨C9_query_shape.2.2.2.1 sampleDB.store (fun _ _ => true) (fun f => (f.rowid : ℚ))
      ("auth timeout") 1 res h (by decide),
    C9_query_shape.2.2.2.2.1 sampleDB.store (fun _ _ => true) (fun f => (f.rowid : ℚ))
      ("auth timeout") 1 res h⟩
